import Mathlib

/-!
Verification of the tower-defense prototype in demos/prototype/main.go.

Modelling conventions:
- Go `int` is modelled as `Int` (no overflow occurs at the value ranges of this
  program), except for counters that the code keeps nonnegative by explicit
  guards, which are modelled as `Nat`.
- Go `float64` is modelled by the exact fraction type `Q` below; `math.Sqrt`
  is modelled by an integer square root on numerator and denominator, which
  agrees with the real square root on perfect squares.  Every concrete
  scenario below only takes square roots of perfect squares, and every general
  theorem depends on positions only through exact arithmetic.
- Go maps (`gScore`, `cameFrom`) are modelled as functions into `Option`;
  a missing key reads as the Go zero value via `Option.getD`.
- The two source loops without a structural termination argument
  (the A* search loop and the path reconstruction loop) are modelled with an
  explicit fuel that is proved sufficient below (`searchLoop_no_fuel_out`).
-/

set_option maxRecDepth 4000

namespace TD


/-- GameState from main.go: playing, won, lost. -/
inductive GameState where
  | StatePlaying
  | StateWon
  | StateLost
deriving DecidableEq, Repr

/-- Point, a grid coordinate (Go int fields). -/
structure Point where
  X : Int
  Y : Int
deriving DecidableEq, Repr

/-- TileType: what is in a cell. -/
inductive TileType where
  | TileEmpty
  | TileGround
  | TileWall
  | TileBase
  | TileSpawn
  | TileTower
deriving DecidableEq, Repr


/-- Exact fraction with explicit numerator and denominator, modelling Go
float64 values exactly.  Denominators stay positive under the operations
below; no gcd normalization is performed, keeping every operation reducible
by the kernel.  All concrete scenarios in this file stay at denominator 1. -/
structure Q where
  num : Int
  den : Int
deriving DecidableEq, Repr

def Q.ofInt (n : Int) : Q := ⟨n, 1⟩

def qadd (a b : Q) : Q := ⟨a.num * b.den + b.num * a.den, a.den * b.den⟩

def qsub (a b : Q) : Q := ⟨a.num * b.den - b.num * a.den, a.den * b.den⟩

def qmul (a b : Q) : Q := ⟨a.num * b.num, a.den * b.den⟩

def qdiv (a b : Q) : Q := ⟨a.num * b.den, a.den * b.num⟩

/-- Value comparison of fractions; correct whenever denominators are positive. -/
def qle (a b : Q) : Bool := decide (a.num * b.den ≤ b.num * a.den)

def qlt (a b : Q) : Bool := decide (a.num * b.den < b.num * a.den)

/-- Fuel-based integer square root (largest r with r*r ≤ n), structurally
recursive so that the kernel can evaluate it. -/
def sqrtLoop (n : Nat) : Nat → Nat → Nat
  | 0, r => r
  | fuel + 1, r => if (r + 1) * (r + 1) ≤ n then sqrtLoop n fuel (r + 1) else r

def natSqrtGo (n : Nat) : Nat := sqrtLoop n n 0

/-- Model of math.Sqrt on the fraction type: the integer square root of the
numerator over that of the denominator, exact on perfect squares (every
square root taken in this development is of a perfect square). -/
def qsqrt (q : Q) : Q := ⟨Int.ofNat (natSqrtGo q.num.toNat), Int.ofNat (natSqrtGo q.den.toNat)⟩

def GridWidth : Int := 20

def GridHeight : Int := 15

def CellSize : Int := 40

def EnemySpeed : Q := Q.ofInt 2

def SpawnInterval : Int := 40

def EnemyMaxHP : Q := Q.ofInt 100

def TowerRange : Q := Q.ofInt 120

def TowerDamage : Q := Q.ofInt 10

def TowerCooldown : Nat := 30

def LaserDuration : Nat := 5

def TotalWaves : Nat := 5

def EnemiesPerWave : Nat := 5

def WaveDelay : Nat := 180

def StartingResource : Int := 100

def TowerCost : Int := 25

def KillReward : Int := 10

/-- Enemy: sub-cell position in pixels, waypoint index, owned path copy, health. -/
structure Enemy where
  X : Q
  Y : Q
  PathIndex : Nat
  Path : List Point
  HP : Q
deriving DecidableEq, Repr

/-- Tower: grid position and remaining cooldown ticks. -/
structure Tower where
  X : Int
  Y : Int
  Cooldown : Nat
deriving DecidableEq, Repr

/-- Laser: transient shot visual with a time-to-live counter. -/
structure Laser where
  FromX : Q
  FromY : Q
  ToX : Q
  ToY : Q
  TTL : Nat
deriving DecidableEq, Repr

/-- Game: the whole mutable state of main.go's Game struct. -/
structure Game where
  grid : List (List TileType)
  hoverX : Int
  hoverY : Int
  hoverValid : Bool
  spawn : Point
  base : Point
  path : Option (List Point)
  pathBlocked : Bool
  enemies : List Enemy
  spawnTimer : Int
  towers : List Tower
  lasers : List Laser
  state : GameState
  resources : Int
  currentWave : Nat
  enemiesThisWave : Nat
  waveDelay : Nat
  totalKills : Nat
deriving DecidableEq, Repr

/-- Per-tick sampled input: cursor position in pixels, mouse buttons, R key. -/
structure Input where
  mouseX : Int
  mouseY : Int
  leftPressed : Bool
  rightPressed : Bool
  rPressed : Bool
deriving DecidableEq, Repr

/-- Read grid[y][x]; callers in the source only index in bounds. -/
def tileAt (grid : List (List TileType)) (x y : Int) : TileType :=
  (grid.getD y.toNat []).getD x.toNat TileType.TileEmpty

/-- Write grid[y][x] = t; callers in the source only index in bounds. -/
def setTile (grid : List (List TileType)) (x y : Int) (t : TileType) : List (List TileType) :=
  grid.set y.toNat ((grid.getD y.toNat []).set x.toNat t)

/-- isWalkable: out of bounds is not walkable; ground, spawn and base are walkable. -/
def Game.isWalkable (g : Game) (x y : Int) : Bool :=
  if x < 0 || GridWidth ≤ x || y < 0 || GridHeight ≤ y then false
  else
    let tile := tileAt g.grid x y
    tile == TileType.TileGround || tile == TileType.TileSpawn || tile == TileType.TileBase

/-- heuristic: Manhattan distance between two grid points. -/
def heuristic (a b : Point) : Int :=
  let dx := a.X - b.X
  let dy := a.Y - b.Y
  let dx2 := if dx < 0 then -dx else dx
  let dy2 := if dy < 0 then -dy else dy
  dx2 + dy2

/-- One entry of the A* priority queue: the point and its f-priority. -/
abbrev PQItem := Point × Int

def pqDefault : PQItem := (⟨0, 0⟩, 0)

def pqGet (l : List PQItem) (i : Nat) : PQItem :=
  l.getD i pqDefault

/-- Less of the Go priorityQueue: strict comparison of priorities. -/
def pqLess (l : List PQItem) (i j : Nat) : Bool :=
  (pqGet l i).2 < (pqGet l j).2

def pqSwap (l : List PQItem) (i j : Nat) : List PQItem :=
  (l.set i (pqGet l j)).set j (pqGet l i)

/-- container/heap sift-up, structurally recursive on a fuel that dominates
the strictly decreasing index (so the fuel never runs out and the out-of-fuel
branch coincides with the loop exit). -/
def heapUpGo : Nat → List PQItem → Nat → List PQItem
  | 0, l, _ => l
  | fuel + 1, l, j =>
    if j = 0 then l
    else
      let i := (j - 1) / 2
      if pqLess l j i then heapUpGo fuel (pqSwap l i j) i else l

/-- container/heap sift-up, as run by heap.Push. -/
def heapUp (l : List PQItem) (j : Nat) : List PQItem :=
  heapUpGo j l j

/-- container/heap sift-down, structurally recursive on a fuel that dominates
the decreasing distance to the prefix end. -/
def heapDownGo : Nat → List PQItem → Nat → Nat → List PQItem
  | 0, l, _, _ => l
  | fuel + 1, l, i, n =>
    let j1 := 2 * i + 1
    if n ≤ j1 then l
    else
      let j := if j1 + 1 < n && pqLess l (j1 + 1) j1 then j1 + 1 else j1
      if pqLess l j i then heapDownGo fuel (pqSwap l i j) j n else l

/-- container/heap sift-down on the prefix of length n, as run by heap.Pop. -/
def heapDown (l : List PQItem) (i n : Nat) : List PQItem :=
  heapDownGo (n - i) l i n

/-- heap.Push: append, then sift the new last element up. -/
def heapPush (l : List PQItem) (x : PQItem) : List PQItem :=
  heapUp (l ++ [x]) l.length

/-- heap.Pop: swap root with last, sift the root down over the shortened prefix,
then remove and return the last element (the old root). -/
def heapPop (l : List PQItem) : PQItem × List PQItem :=
  let n := l.length - 1
  let l2 := heapDown (pqSwap l 0 n) 0 n
  (pqGet l2 n, l2.take n)

/-- The mutable state of the A* search loop. -/
structure AStar where
  openList : List PQItem
  gScore : Point → Option Nat
  cameFrom : Point → Option Point

/-- The four axis directions, in source order: up, down, left, right. -/
def dirs : List Point := [⟨0, -1⟩, ⟨0, 1⟩, ⟨-1, 0⟩, ⟨1, 0⟩]

def addPoint (p d : Point) : Point := ⟨p.X + d.X, p.Y + d.Y⟩

/-- The relaxation condition of the source: the neighbor has no g-score yet,
or the tentative score is strictly smaller. -/
def improves (old : Option Nat) (tg : Nat) : Bool :=
  match old with
  | none => true
  | some o => tg < o

/-- Relax a single neighbor of the current cell (the body of the inner loop). -/
def relaxNeighbor (walk : Point → Bool) (goal cur : Point) (st : AStar) (d : Point) : AStar :=
  let nb := addPoint cur d
  if walk nb then
    let tg := (st.gScore cur).getD 0 + 1
    if improves (st.gScore nb) tg then
      { openList := heapPush st.openList (nb, (tg : Int) + heuristic nb goal),
        gScore := fun p => if p = nb then some tg else st.gScore p,
        cameFrom := fun p => if p = nb then some cur else st.cameFrom p }
    else st
  else st

/-- Relax all four neighbors in source order. -/
def relaxAll (walk : Point → Bool) (goal cur : Point) (st : AStar) : AStar :=
  dirs.foldl (relaxNeighbor walk goal cur) st

/-- Fuel for the reconstruction loop, larger than any possible g-score. -/
def ReconFuel : Nat := 302

/-- Path reconstruction: walk the came-from map backward from the goal,
prepending, until the start is reached. -/
def reconstruct (cf : Point → Option Point) (start : Point) : Nat → Point → List Point → List Point
  | 0, _, acc => acc
  | fuel + 1, cur, acc =>
    if cur = start then acc
    else
      let c := (cf cur).getD ⟨0, 0⟩
      reconstruct cf start fuel c (c :: acc)

/-- Fuel for the search loop; `searchLoop` is proved to return before running
out when started from the initial state (the loop measure is below this). -/
def SearchFuel : Nat := 90903

/-- The A* main loop: pop the minimum-priority item; if it is the goal,
reconstruct; otherwise relax its neighbors and continue. -/
def searchLoop (walk : Point → Bool) (start goal : Point) : Nat → AStar → Option (List Point)
  | 0, _ => none
  | fuel + 1, st =>
    match st.openList with
    | [] => none
    | _ :: _ =>
      let pr := heapPop st.openList
      let cur := pr.1.1
      if cur = goal then some (reconstruct st.cameFrom start ReconFuel cur [cur])
      else
        searchLoop walk start goal fuel
          (relaxAll walk goal cur { st with openList := pr.2 })

/-- The initial A* state: the start pushed with priority 0 and g-score 0. -/
def initState (start : Point) : AStar :=
  { openList := [(start, 0)],
    gScore := fun p => if p = start then some 0 else none,
    cameFrom := fun _ => none }

/-- findPath over an abstract walkability predicate. -/
def findPathW (walk : Point → Bool) (start goal : Point) : Option (List Point) :=
  searchLoop walk start goal SearchFuel (initState start)

/-- findPath: A* from start to goal over the game's grid walkability. -/
def Game.findPath (g : Game) (start goal : Point) : Option (List Point) :=
  findPathW (fun p => g.isWalkable p.X p.Y) start goal

/-- recalculatePath: refresh the global spawn-to-base path and the blocked flag. -/
def Game.recalculatePath (g : Game) : Game :=
  let p := g.findPath g.spawn g.base
  { g with path := p, pathBlocked := p.isNone }

/-- Truncation of a fraction toward zero, the Go float64-to-int conversion. -/
def truncQ (q : Q) : Int := q.num.tdiv q.den

/-- The grid cell coordinate enclosing a pixel coordinate (Go int(v)/CellSize). -/
def cellOfPos (q : Q) : Int := (truncQ q).tdiv CellSize

/-- The pixel center of a grid cell coordinate: c*CellSize + CellSize/2, an
exact integer (CellSize/2 is exact constant arithmetic in the source). -/
def cellCenter (c : Int) : Q := Q.ofInt (c * CellSize + CellSize / 2)

/-- The per-enemy body of recalculateEnemyPaths: recompute the enemy's path
from the grid cell enclosing its current position to the base, resetting the
waypoint index to 1; keep path and index untouched when no path exists. -/
def recalcEnemy (g : Game) (e : Enemy) : Enemy :=
  let currentCell : Point := ⟨cellOfPos e.X, cellOfPos e.Y⟩
  match g.findPath currentCell g.base with
  | some newPath => { e with Path := newPath, PathIndex := 1 }
  | none => e

/-- recalculateEnemyPaths: recompute each enemy's path from its current cell to
the base; on failure the enemy keeps its current path and index. -/
def Game.recalculateEnemyPaths (g : Game) : Game :=
  { g with enemies := g.enemies.map (recalcEnemy g) }

/-- spawnEnemy: no-op if the reference path is blocked or empty; otherwise
append a full-health enemy at the spawn center owning a copy of the path. -/
def Game.spawnEnemy (g : Game) : Game :=
  if g.pathBlocked || (g.path.getD []).length == 0 then g
  else
    let e : Enemy :=
      { X := cellCenter g.spawn.X,
        Y := cellCenter g.spawn.Y,
        PathIndex := 1,
        Path := g.path.getD [],
        HP := EnemyMaxHP }
    { g with enemies := g.enemies ++ [e] }

/-- addTower: reject if resources are insufficient; otherwise pay the cost,
mark the cell tower-occupied and record the tower. -/
def Game.addTower (g : Game) (x y : Int) : Game × Bool :=
  if g.resources < TowerCost then (g, false)
  else
    ({ g with resources := g.resources - TowerCost,
              grid := setTile g.grid x y TileType.TileTower,
              towers := g.towers ++ [⟨x, y, 0⟩] }, true)

/-- Remove the first tower with the given coordinates from the list. -/
def removeFirstTower : List Tower → Int → Int → List Tower
  | [], _, _ => []
  | t :: ts, x, y => if t.X == x && t.Y == y then ts else t :: removeFirstTower ts x y

/-- removeTower: revert the cell to ground, refund half the cost, drop the tower. -/
def Game.removeTower (g : Game) (x y : Int) : Game :=
  { g with grid := setTile g.grid x y TileType.TileGround,
           resources := g.resources + TowerCost / 2,
           towers := removeFirstTower g.towers x y }

/-- Accumulator of the enemy pass: survivors in order, plus the ledger fields. -/
structure EnemyPass where
  alive : List Enemy
  resources : Int
  totalKills : Nat
  state : GameState
deriving DecidableEq, Repr

/-- One enemy of updateEnemies: dead enemies are dropped and credited; an enemy
past its path ends the game; otherwise move toward the current waypoint. -/
def enemyStep (acc : EnemyPass) (e : Enemy) : EnemyPass :=
  if qle e.HP (Q.ofInt 0) then
    { acc with resources := acc.resources + KillReward, totalKills := acc.totalKills + 1 }
  else if e.Path.length ≤ e.PathIndex then
    { acc with state := GameState.StateLost }
  else
    let target := e.Path.getD e.PathIndex ⟨0, 0⟩
    let targetX := cellCenter target.X
    let targetY := cellCenter target.Y
    let dx := qsub targetX e.X
    let dy := qsub targetY e.Y
    let dist := qsqrt (qadd (qmul dx dx) (qmul dy dy))
    let e2 :=
      if qlt dist EnemySpeed then
        { e with X := targetX, Y := targetY, PathIndex := e.PathIndex + 1 }
      else
        { e with X := qadd e.X (qmul (qdiv dx dist) EnemySpeed),
                 Y := qadd e.Y (qmul (qdiv dy dist) EnemySpeed) }
    { acc with alive := acc.alive ++ [e2] }

/-- updateEnemies: fold the enemy pass over the enemy list. -/
def Game.updateEnemies (g : Game) : Game :=
  let r := g.enemies.foldl enemyStep
    { alive := [], resources := g.resources, totalKills := g.totalKills, state := g.state }
  { g with enemies := r.alive, resources := r.resources,
           totalKills := r.totalKills, state := r.state }

/-- Accumulator of the tower pass: the shared enemy list, processed towers, lasers. -/
structure TowerPass where
  enemies : List Enemy
  towers : List Tower
  lasers : List Laser
deriving DecidableEq, Repr

/-- Target of one tower scan: index of the living in-range enemy with the
strictly highest path progress, first found winning ties. -/
def findTarget (enemies : List Enemy) (towerX towerY : Q) : Option Nat :=
  let r := enemies.foldl
    (fun (acc : Option Nat × Int × Nat) e =>
      let best := acc.1
      let bestProgress := acc.2.1
      let idx := acc.2.2
      if qle e.HP (Q.ofInt 0) then (best, bestProgress, idx + 1)
      else
        let dx := qsub e.X towerX
        let dy := qsub e.Y towerY
        let dist := qsqrt (qadd (qmul dx dx) (qmul dy dy))
        if qlt TowerRange dist then (best, bestProgress, idx + 1)
        else if bestProgress < (e.PathIndex : Int) then (some idx, (e.PathIndex : Int), idx + 1)
        else (best, bestProgress, idx + 1))
    (none, -1, 0)
  r.1

/-- Apply one shot of tower damage to the enemy at the given index. -/
def hitEnemy : List Enemy → Nat → List Enemy
  | [], _ => []
  | e :: es, 0 => { e with HP := qsub e.HP TowerDamage } :: es
  | e :: es, i + 1 => e :: hitEnemy es i

def defaultEnemy : Enemy := { X := Q.ofInt 0, Y := Q.ofInt 0, PathIndex := 0, Path := [], HP := Q.ofInt 0 }

/-- One tower of updateTowers: cooling towers only tick down; ready towers fire
at their target, reset the cooldown and emit a laser. -/
def towerStep (acc : TowerPass) (t : Tower) : TowerPass :=
  if 0 < t.Cooldown then
    { acc with towers := acc.towers ++ [{ t with Cooldown := t.Cooldown - 1 }] }
  else
    let towerX := cellCenter t.X
    let towerY := cellCenter t.Y
    match findTarget acc.enemies towerX towerY with
    | none => { acc with towers := acc.towers ++ [t] }
    | some i =>
      let e := acc.enemies.getD i defaultEnemy
      { enemies := hitEnemy acc.enemies i,
        towers := acc.towers ++ [{ t with Cooldown := TowerCooldown }],
        lasers := acc.lasers ++
          [{ FromX := towerX, FromY := towerY, ToX := e.X, ToY := e.Y, TTL := LaserDuration }] }

/-- updateTowers: fold the tower pass over the tower list. -/
def Game.updateTowers (g : Game) : Game :=
  let r := g.towers.foldl towerStep { enemies := g.enemies, towers := [], lasers := g.lasers }
  { g with enemies := r.enemies, towers := r.towers, lasers := r.lasers }

/-- One laser of updateLasers: decrement TTL, keep while still positive. -/
def laserStep (acc : List Laser) (l : Laser) : List Laser :=
  let l2 : Laser := { l with TTL := l.TTL - 1 }
  if 0 < l2.TTL then acc ++ [l2] else acc

/-- updateLasers: age all lasers and drop the expired ones. -/
def Game.updateLasers (g : Game) : Game :=
  { g with lasers := g.lasers.foldl laserStep [] }

/-- The wave spawning block at the top of Update: count down the wave delay,
else spawn on the spawn timer, else check wave completion. -/
def Game.waveStep (g : Game) : Game :=
  if 0 < g.waveDelay then { g with waveDelay := g.waveDelay - 1 }
  else if 0 < g.enemiesThisWave then
    let g1 := { g with spawnTimer := g.spawnTimer - 1 }
    if g1.spawnTimer ≤ 0 then
      let g2 := g1.spawnEnemy
      { g2 with enemiesThisWave := g2.enemiesThisWave - 1, spawnTimer := SpawnInterval }
    else g1
  else if g.enemies.length == 0 then
    if TotalWaves ≤ g.currentWave then { g with state := GameState.StateWon }
    else
      { g with currentWave := g.currentWave + 1,
               enemiesThisWave := EnemiesPerWave + (g.currentWave + 1),
               waveDelay := WaveDelay }
  else g

/-- The input block at the bottom of Update: refresh the hover cell, then
handle placement and removal clicks, recalculating paths on a grid change. -/
def Game.handleInput (g : Game) (inp : Input) : Game :=
  let gx := inp.mouseX.tdiv CellSize
  let gy := inp.mouseY.tdiv CellSize
  let hv := decide (0 ≤ gx) && decide (gx < GridWidth) && decide (0 ≤ gy) && decide (gy < GridHeight)
  let g1 := { g with hoverValid := hv,
                     hoverX := if hv then gx else g.hoverX,
                     hoverY := if hv then gy else g.hoverY }
  if g1.hoverValid && (g1.state == GameState.StatePlaying) then
    let tile := tileAt g1.grid g1.hoverX g1.hoverY
    let pl :=
      if inp.leftPressed && (tile == TileType.TileGround) then
        g1.addTower g1.hoverX g1.hoverY
      else (g1, false)
    let rm :=
      if inp.rightPressed && (tile == TileType.TileTower) then
        (pl.1.removeTower g1.hoverX g1.hoverY, true)
      else pl
    if rm.2 then rm.1.recalculatePath.recalculateEnemyPaths else rm.1
  else g1

/-- NewGame: the initial grid layout, path, and counters. -/
def newGame : Game :=
  let grid0 := List.replicate 15 (List.replicate 20 TileType.TileGround)
  let grid1 := (List.range 20).foldl
    (fun gr x => setTile (setTile gr (Int.ofNat x) 0 TileType.TileWall)
      (Int.ofNat x) (GridHeight - 1) TileType.TileWall) grid0
  let grid2 := (List.range 15).foldl
    (fun gr y => setTile (setTile gr 0 (Int.ofNat y) TileType.TileWall)
      (GridWidth - 1) (Int.ofNat y) TileType.TileWall) grid1
  let base : Point := ⟨GridWidth / 2, GridHeight - 2⟩
  let grid3 := setTile grid2 base.X base.Y TileType.TileBase
  let spawn : Point := ⟨GridWidth / 2, 1⟩
  let grid4 := setTile grid3 spawn.X spawn.Y TileType.TileSpawn
  let grid5 := (List.range 5).foldl
    (fun gr k => setTile (setTile gr 5 (Int.ofNat k + 3) TileType.TileWall)
      14 (Int.ofNat k + 3) TileType.TileWall) grid4
  let g : Game :=
    { grid := grid5, hoverX := 0, hoverY := 0, hoverValid := false,
      spawn := spawn, base := base, path := none, pathBlocked := false,
      enemies := [], spawnTimer := 0, towers := [], lasers := [],
      state := GameState.StatePlaying, resources := StartingResource,
      currentWave := 1, enemiesThisWave := EnemiesPerWave, waveDelay := 300,
      totalKills := 0 }
  g.recalculatePath

/-- Update: when not playing only an R press restarts; otherwise run the tick
passes in source order, then input handling. -/
def Game.update (g : Game) (inp : Input) : Game :=
  if g.state = GameState.StatePlaying then
    ((((g.waveStep).updateEnemies).updateTowers).updateLasers).handleInput inp
  else if inp.rPressed then newGame
  else g

/-- A session: fold the per-tick inputs over a fresh game. -/
def run (inputs : List Input) : Game :=
  inputs.foldl Game.update newGame

/-!
Concrete scenario states used by counterexamples and witnesses.  The grid is
irrelevant to a tick with no click (the input handler never reads it when the
cursor is off the board), so a plain all-ground board is used.
-/

def neutralInput : Input :=
  { mouseX := -50, mouseY := -50, leftPressed := false, rightPressed := false, rPressed := false }

def flatGrid : List (List TileType) :=
  List.replicate 15 (List.replicate 20 TileType.TileGround)

/-- An enemy resting at the center of cell (5,5); its path repeats that cell,
so each tick it snaps to its own position and advances the waypoint index. -/
def exEnemy : Enemy :=
  { X := cellCenter 5, Y := cellCenter 5, PathIndex := 1,
    Path := List.replicate 40 ⟨5, 5⟩, HP := Q.ofInt 5 }

/-- A ready tower two cells away (80 pixels, inside the 120 pixel range). -/
def exTower : Tower := { X := 7, Y := 5, Cooldown := 0 }

/-- Final wave, nothing left to spawn, one nearly dead enemy, one ready tower. -/
def exState : Game :=
  { grid := flatGrid, hoverX := 0, hoverY := 0, hoverValid := false,
    spawn := ⟨10, 1⟩, base := ⟨10, 13⟩, path := none, pathBlocked := true,
    enemies := [exEnemy], spawnTimer := 100, towers := [exTower], lasers := [],
    state := GameState.StatePlaying, resources := 100,
    currentWave := 5, enemiesThisWave := 0, waveDelay := 0, totalKills := 0 }

/-- Cooldown-timing scenario: the same setup with a 1000 HP enemy and the wave
system quiesced, iterated tick by tick under the neutral input. -/
def exCdState : Game :=
  { exState with enemies := [{ exEnemy with HP := Q.ofInt 1000 }], waveDelay := 10000 }

def exCdIter : Nat → Game
  | 0 => exCdState
  | n + 1 => (exCdIter n).update neutralInput

/-- Enemies of a state that are dead (health at or below zero). -/
def deadCount (g : Game) : Nat :=
  (g.enemies.filter fun e => qle e.HP (Q.ofInt 0)).length

/-- Enemies of a state that are alive (health above zero). -/
def aliveCount (g : Game) : Nat :=
  (g.enemies.filter fun e => !qle e.HP (Q.ofInt 0)).length

/-- C1 counterexample.  In `exState` the sole enemy starts the tick alive at
5 HP and the tower's shot brings it to -5 HP during pass 3 of that same tick;
at the end of the tick the enemy is nevertheless still in play and neither the
resource ledger nor the kill counter has been credited, and the wave check saw
it as alive, so the claim that the cleanup pass runs after tower combat within
the tick and removes it that same tick is false. -/
theorem c1_counterexample :
    (exState.update neutralInput).enemies.map Enemy.HP = [Q.ofInt (-5)] ∧
    (exState.update neutralInput).enemies.length = 1 ∧
    (exState.update neutralInput).resources = exState.resources ∧
    (exState.update neutralInput).totalKills = exState.totalKills := by
  decide

/-- C2 counterexample.  `exState` is the final wave with nothing left to
spawn; its sole (hence final) enemy is brought to or below zero health by the
tower during the tick, yet at the end of that tick the state is still playing:
the transition to won did not happen on that tick's wave-completion check. -/
theorem c2_counterexample :
    exState.currentWave = TotalWaves ∧ exState.enemiesThisWave = 0 ∧
    exState.enemies.length = 1 ∧
    qle ((exState.update neutralInput).enemies.getD 0 defaultEnemy).HP (Q.ofInt 0) = true ∧
    (exState.update neutralInput).state = GameState.StatePlaying := by
  decide

/-- C2 amended.  The killing shot lands in tick one; the next tick's wave
check still sees the dead enemy in the list (so no transition), that tick's
cleanup removes and credits it, and the wave-completion check of the second
tick after the shot transitions the state to won. -/
theorem c2_amended :
    (exState.update neutralInput).state = GameState.StatePlaying ∧
    ((exState.update neutralInput).update neutralInput).state = GameState.StatePlaying ∧
    ((exState.update neutralInput).update neutralInput).enemies = [] ∧
    ((exState.update neutralInput).update neutralInput).resources = exState.resources + KillReward ∧
    (((exState.update neutralInput).update neutralInput).update neutralInput).state
      = GameState.StateWon := by
  decide

/-- C3 counterexample.  In the cooldown scenario the tower (cooldown duration
30) fires during tick 1, bringing the enemy from 1000 to 990 HP.  On the 30th
tick after that shot (tick 31) the enemy still has 990 HP: the tower has not
fired again by then, refuting that it fires again exactly on the 30th tick
after the shot. -/
theorem c3_counterexample :
    (exCdIter 0).enemies.map Enemy.HP = [Q.ofInt 1000] ∧
    (exCdIter 1).enemies.map Enemy.HP = [Q.ofInt 990] ∧
    (exCdIter 31).enemies.map Enemy.HP = [Q.ofInt 990] := by
  decide

/-- C3 amended.  After the shot in tick 1 the tower's cooldown is 30; it does
not fire during the next 30 ticks (the enemy is still at 990 HP after tick 31,
when the cooldown has just reached zero), and it fires again exactly on the
31st tick after the shot (tick 32), taking the enemy to 980 HP. -/
theorem c3_amended :
    (exCdIter 0).enemies.map Enemy.HP = [Q.ofInt 1000] ∧
    (exCdIter 1).enemies.map Enemy.HP = [Q.ofInt 990] ∧
    (exCdIter 1).towers.map Tower.Cooldown = [30] ∧
    (exCdIter 31).enemies.map Enemy.HP = [Q.ofInt 990] ∧
    (exCdIter 31).towers.map Tower.Cooldown = [0] ∧
    (exCdIter 32).enemies.map Enemy.HP = [Q.ofInt 980] ∧
    (exCdIter 32).towers.map Tower.Cooldown = [30] := by
  decide

/-- Enemies that are alive and still short of the end of their path; these are
exactly the enemies the movement pass keeps. -/
def marchingCount (g : Game) : Nat :=
  (g.enemies.filter fun e => !qle e.HP (Q.ofInt 0) && decide (e.PathIndex < e.Path.length)).length

theorem enemyStep_resources (acc : EnemyPass) (e : Enemy) :
    (enemyStep acc e).resources
      = acc.resources + (if qle e.HP (Q.ofInt 0) then KillReward else 0) := by
  unfold enemyStep
  cases h : qle e.HP (Q.ofInt 0) <;> simp [h] <;> split <;> simp

theorem enemyStep_totalKills (acc : EnemyPass) (e : Enemy) :
    (enemyStep acc e).totalKills
      = acc.totalKills + (if qle e.HP (Q.ofInt 0) then 1 else 0) := by
  unfold enemyStep
  cases h : qle e.HP (Q.ofInt 0) <;> simp [h] <;> split <;> simp

theorem enemyStep_alive_length (acc : EnemyPass) (e : Enemy) :
    (enemyStep acc e).alive.length
      = acc.alive.length
        + (if !qle e.HP (Q.ofInt 0) && decide (e.PathIndex < e.Path.length) then 1 else 0) := by
  unfold enemyStep
  cases h : qle e.HP (Q.ofInt 0) <;> simp [h]
  rcases Nat.lt_or_ge e.PathIndex e.Path.length with hlt | hge
  · simp [Nat.not_le_of_lt hlt, hlt]
  · simp [Nat.le_of_lt, hge, Nat.not_lt_of_le hge]

theorem foldl_enemyStep_resources (es : List Enemy) : ∀ acc : EnemyPass,
    (es.foldl enemyStep acc).resources
      = acc.resources + KillReward * ((es.filter fun e => qle e.HP (Q.ofInt 0)).length : Int) := by
  induction es with
  | nil => intro acc; simp
  | cons e es ih =>
    intro acc
    rw [List.foldl_cons, ih, enemyStep_resources]
    cases h : qle e.HP (Q.ofInt 0) <;> simp [h] <;> push_cast <;> ring

theorem foldl_enemyStep_totalKills (es : List Enemy) : ∀ acc : EnemyPass,
    (es.foldl enemyStep acc).totalKills
      = acc.totalKills + (es.filter fun e => qle e.HP (Q.ofInt 0)).length := by
  induction es with
  | nil => intro acc; simp
  | cons e es ih =>
    intro acc
    rw [List.foldl_cons, ih, enemyStep_totalKills]
    cases h : qle e.HP (Q.ofInt 0) <;> simp [h] <;> omega

theorem foldl_enemyStep_alive_length (es : List Enemy) : ∀ acc : EnemyPass,
    (es.foldl enemyStep acc).alive.length
      = acc.alive.length
        + (es.filter fun e => !qle e.HP (Q.ofInt 0) && decide (e.PathIndex < e.Path.length)).length := by
  induction es with
  | nil => intro acc; simp
  | cons e es ih =>
    intro acc
    rw [List.foldl_cons, ih, enemyStep_alive_length]
    cases h : !qle e.HP (Q.ofInt 0) && decide (e.PathIndex < e.Path.length) <;> simp [h] <;> omega

theorem updateEnemies_resources (g : Game) :
    (g.updateEnemies).resources = g.resources + KillReward * (deadCount g : Int) := by
  simp only [Game.updateEnemies, deadCount]
  rw [foldl_enemyStep_resources]

theorem updateEnemies_totalKills (g : Game) :
    (g.updateEnemies).totalKills = g.totalKills + deadCount g := by
  simp only [Game.updateEnemies, deadCount]
  rw [foldl_enemyStep_totalKills]

theorem updateEnemies_length (g : Game) :
    (g.updateEnemies).enemies.length = marchingCount g := by
  simp only [Game.updateEnemies, marchingCount]
  rw [foldl_enemyStep_alive_length]
  simp

theorem hitEnemy_length (es : List Enemy) : ∀ i, (hitEnemy es i).length = es.length := by
  induction es with
  | nil => intro i; cases i <;> rfl
  | cons e es ih => intro i; cases i <;> simp [hitEnemy, ih]

theorem towerStep_enemies_length (acc : TowerPass) (t : Tower) :
    (towerStep acc t).enemies.length = acc.enemies.length := by
  simp only [towerStep]
  split
  · rfl
  · split
    · rfl
    · simp [hitEnemy_length]

theorem foldl_towerStep_enemies_length (ts : List Tower) : ∀ acc : TowerPass,
    (ts.foldl towerStep acc).enemies.length = acc.enemies.length := by
  induction ts with
  | nil => intro acc; rfl
  | cons t ts ih => intro acc; rw [List.foldl_cons, ih, towerStep_enemies_length]

theorem updateTowers_enemies_length (g : Game) :
    (g.updateTowers).enemies.length = g.enemies.length := by
  simp only [Game.updateTowers]
  simp [foldl_towerStep_enemies_length]

theorem updateTowers_resources (g : Game) : (g.updateTowers).resources = g.resources := rfl

theorem updateTowers_totalKills (g : Game) : (g.updateTowers).totalKills = g.totalKills := rfl

theorem updateLasers_resources (g : Game) : (g.updateLasers).resources = g.resources := rfl

theorem updateLasers_totalKills (g : Game) : (g.updateLasers).totalKills = g.totalKills := rfl

theorem updateLasers_enemies (g : Game) : (g.updateLasers).enemies = g.enemies := rfl

theorem qle_maxHP : qle EnemyMaxHP (Q.ofInt 0) = false := rfl

theorem waveStep_resources (g : Game) : (g.waveStep).resources = g.resources := by
  simp only [Game.waveStep, Game.spawnEnemy]
  split
  · rfl
  split
  · split
    · split <;> rfl
    · rfl
  split
  · split <;> rfl
  · rfl

theorem waveStep_totalKills (g : Game) : (g.waveStep).totalKills = g.totalKills := by
  simp only [Game.waveStep, Game.spawnEnemy]
  split
  · rfl
  split
  · split
    · split <;> rfl
    · rfl
  split
  · split <;> rfl
  · rfl

theorem waveStep_deadCount (g : Game) : deadCount g.waveStep = deadCount g := by
  simp only [Game.waveStep, Game.spawnEnemy, deadCount]
  split
  · rfl
  split
  · split
    · split
      · rfl
      · simp [List.filter_append, qle_maxHP]
    · rfl
  split
  · split <;> rfl
  · rfl

theorem waveStep_marching_le (g : Game) : marchingCount g ≤ marchingCount g.waveStep := by
  simp only [Game.waveStep, Game.spawnEnemy, marchingCount]
  split
  · exact Nat.le_refl _
  split
  · split
    · split
      · exact Nat.le_refl _
      · simp [List.filter_append]
    · exact Nat.le_refl _
  split
  · split <;> exact Nat.le_refl _
  · exact Nat.le_refl _

/-- With neither mouse button pressed the input handler only refreshes the
hover fields. -/
theorem handleInput_no_click (g : Game) (inp : Input)
    (hl : inp.leftPressed = false) (hr : inp.rightPressed = false) :
    (g.handleInput inp).grid = g.grid ∧ (g.handleInput inp).towers = g.towers ∧
    (g.handleInput inp).resources = g.resources ∧ (g.handleInput inp).enemies = g.enemies ∧
    (g.handleInput inp).totalKills = g.totalKills ∧ (g.handleInput inp).path = g.path ∧
    (g.handleInput inp).pathBlocked = g.pathBlocked ∧ (g.handleInput inp).state = g.state ∧
    (g.handleInput inp).spawnTimer = g.spawnTimer ∧
    (g.handleInput inp).enemiesThisWave = g.enemiesThisWave ∧
    (g.handleInput inp).waveDelay = g.waveDelay ∧
    (g.handleInput inp).currentWave = g.currentWave := by
  simp [Game.handleInput, hl, hr]

/-- C1 amended.  The cleanup that removes dead enemies and credits the ledger
and kill counter runs at the start of the enemy pass (pass 2), before tower
combat: the enemies credited in a tick are exactly those already at or below
zero health when the tick began, and no enemy that began the tick alive and
short of its path end is removed during that tick, so an enemy brought to or
below zero health by tower fire stays in play until the next tick's cleanup. -/
theorem c1_amended (g : Game) (inp : Input)
    (hst : g.state = GameState.StatePlaying)
    (hl : inp.leftPressed = false) (hr : inp.rightPressed = false) :
    (g.update inp).resources = g.resources + KillReward * (deadCount g : Int) ∧
    (g.update inp).totalKills = g.totalKills + deadCount g ∧
    marchingCount g ≤ (g.update inp).enemies.length := by
  have hup : g.update inp
      = ((((g.waveStep).updateEnemies).updateTowers).updateLasers).handleInput inp := by
    unfold Game.update
    rw [if_pos hst]
  obtain ⟨-, -, hres, hen, hkills, -⟩ :=
    handleInput_no_click ((((g.waveStep).updateEnemies).updateTowers).updateLasers) inp hl hr
  rw [hup]
  refine ⟨?_, ?_, ?_⟩
  · rw [hres, updateLasers_resources, updateTowers_resources, updateEnemies_resources,
      waveStep_resources, waveStep_deadCount]
  · rw [hkills, updateLasers_totalKills, updateTowers_totalKills, updateEnemies_totalKills,
      waveStep_totalKills, waveStep_deadCount]
  · rw [hen, updateLasers_enemies, updateTowers_enemies_length, updateEnemies_length]
    exact waveStep_marching_le g

/-- C1 amended witness: the amended rule instantiated at the counterexample
state, where nobody is dead at tick start, so nothing is credited and the one
marching enemy is still in play at the end of the tick. -/
theorem c1_amended_witness :
    (exState.update neutralInput).resources = exState.resources + KillReward * (deadCount exState : Int) ∧
    (exState.update neutralInput).totalKills = exState.totalKills + deadCount exState ∧
    marchingCount exState ≤ (exState.update neutralInput).enemies.length :=
  c1_amended exState neutralInput rfl rfl rfl

theorem getD_set_self {α : Type} (l : List α) (i : Nat) (v d : α) (h : i < l.length) :
    (l.set i v).getD i d = v := by
  induction l generalizing i with
  | nil => simp at h
  | cons a l ih =>
    cases i with
    | zero => rfl
    | succ n => exact ih n (by simpa using h)

theorem set_getD_self {α : Type} (l : List α) (i : Nat) (d : α) :
    l.set i (l.getD i d) = l := by
  induction l generalizing i with
  | nil => rfl
  | cons a l ih =>
    cases i with
    | zero => rfl
    | succ n => simp only [List.set, List.getD_cons_succ, ih]

theorem getD_default_of_le {α : Type} (l : List α) (i : Nat) (d : α) (h : l.length ≤ i) :
    l.getD i d = d := by
  induction l generalizing i with
  | nil => rfl
  | cons a l ih =>
    cases i with
    | zero => simp at h
    | succ n => exact ih n (by simpa using h)

/-- C8.  Placing a tower on a ground cell with sufficient resources and then
immediately removing it restores the grid (in particular that cell is ground
again, its pre-placement type) and leaves resources at the starting value
minus the cost plus the refund, with the refund strictly below the cost. -/
theorem c8_place_then_remove (g : Game) (x y : Int)
    (hg : tileAt g.grid x y = TileType.TileGround)
    (hr : TowerCost ≤ g.resources) :
    ((g.addTower x y).1.removeTower x y).grid = g.grid ∧
    tileAt ((g.addTower x y).1.removeTower x y).grid x y = TileType.TileGround ∧
    ((g.addTower x y).1.removeTower x y).resources = g.resources - TowerCost + TowerCost / 2 ∧
    TowerCost / 2 < TowerCost := by
  have hnot : ¬ g.resources < TowerCost := by omega
  have hyt : y.toNat < g.grid.length := by
    by_contra hle
    rw [tileAt, getD_default_of_le g.grid y.toNat [] (by omega)] at hg
    simp [List.getD] at hg
  have hxt : x.toNat < (g.grid.getD y.toNat []).length := by
    by_contra hle
    rw [tileAt, getD_default_of_le (g.grid.getD y.toNat []) x.toNat TileType.TileEmpty (by omega)] at hg
    exact absurd hg (by decide)
  have hgrid : setTile (setTile g.grid x y TileType.TileTower) x y TileType.TileGround = g.grid := by
    rw [setTile, setTile]
    rw [getD_set_self g.grid y.toNat _ [] hyt]
    rw [List.set_set, List.set_set]
    have hrow : (g.grid.getD y.toNat []).set x.toNat TileType.TileGround = g.grid.getD y.toNat [] := by
      have : TileType.TileGround = (g.grid.getD y.toNat []).getD x.toNat TileType.TileEmpty := by
        rw [← hg]; rfl
      rw [this, set_getD_self]
    rw [hrow, set_getD_self]
  refine ⟨?_, ?_, ?_, by decide⟩
  · simp only [Game.addTower, if_neg hnot, Game.removeTower]
    exact hgrid
  · simp only [Game.addTower, if_neg hnot, Game.removeTower]
    rw [hgrid, hg]
  · simp only [Game.addTower, if_neg hnot, Game.removeTower]

/-- C8 witness: place then remove on the ground cell (2,2) of the fresh game. -/
theorem c8_witness :
    ((newGame.addTower 2 2).1.removeTower 2 2).grid = newGame.grid ∧
    tileAt ((newGame.addTower 2 2).1.removeTower 2 2).grid 2 2 = TileType.TileGround ∧
    ((newGame.addTower 2 2).1.removeTower 2 2).resources
      = newGame.resources - TowerCost + TowerCost / 2 ∧
    TowerCost / 2 < TowerCost :=
  c8_place_then_remove newGame 2 2 (by decide) (by decide)

/-- C7.  A placement request on a non-ground cell, a placement request without
sufficient resources, and a removal request on a cell without a tower each
leave the grid, the tower list, the resource counter (and also the enemies and
the reference path) unchanged; an unaffordable placement additionally signals
rejection through addTower's boolean result. -/
theorem c7_rejected_no_mutation (g : Game) (inp : Input)
    (h : (inp.leftPressed = true ∧ inp.rightPressed = false ∧
            tileAt g.grid (inp.mouseX.tdiv CellSize) (inp.mouseY.tdiv CellSize)
              ≠ TileType.TileGround)
       ∨ (inp.leftPressed = true ∧ inp.rightPressed = false ∧
            tileAt g.grid (inp.mouseX.tdiv CellSize) (inp.mouseY.tdiv CellSize)
              = TileType.TileGround ∧ g.resources < TowerCost)
       ∨ (inp.rightPressed = true ∧ inp.leftPressed = false ∧
            tileAt g.grid (inp.mouseX.tdiv CellSize) (inp.mouseY.tdiv CellSize)
              ≠ TileType.TileTower)) :
    (g.handleInput inp).grid = g.grid ∧ (g.handleInput inp).towers = g.towers ∧
    (g.handleInput inp).resources = g.resources ∧ (g.handleInput inp).enemies = g.enemies ∧
    (g.handleInput inp).path = g.path ∧
    (g.resources < TowerCost → ∀ x y, (g.addTower x y).2 = false) := by
  have hsig : g.resources < TowerCost → ∀ x y, (g.addTower x y).2 = false := by
    intro hlt x y
    simp [Game.addTower, hlt]
  rcases h with ⟨hl, hr, ht⟩ | ⟨hl, hr, ht, hres⟩ | ⟨hr, hl, ht⟩
  · simp only [Game.handleInput]
    split
    case isTrue hcond =>
      rw [Bool.and_eq_true] at hcond
      simp [hcond.1, hl, hr, ht]
      exact hsig
    case isFalse hcond =>
      simp
      exact hsig
  · simp only [Game.handleInput]
    split
    case isTrue hcond =>
      rw [Bool.and_eq_true] at hcond
      simp [hcond.1, hl, hr, ht, Game.addTower, hres]
    case isFalse hcond =>
      simp
      exact hsig
  · simp only [Game.handleInput]
    split
    case isTrue hcond =>
      rw [Bool.and_eq_true] at hcond
      simp [hcond.1, hl, hr, ht]
      exact hsig
    case isFalse hcond =>
      simp
      exact hsig

def inLeftWall : Input :=
  { mouseX := 5, mouseY := 5, leftPressed := true, rightPressed := false, rPressed := false }

def inLeftGround : Input :=
  { mouseX := 100, mouseY := 100, leftPressed := true, rightPressed := false, rPressed := false }

def inRightGround : Input :=
  { mouseX := 100, mouseY := 100, leftPressed := false, rightPressed := true, rPressed := false }

def poorGame : Game := { newGame with resources := 5 }

/-- C7 witness: the three failing commands at concrete states, namely a left
click on the wall cell (0,0), a left click on the ground cell (2,2) with only
5 resources, and a right click on the towerless ground cell (2,2). -/
theorem c7_witness :
    (newGame.handleInput inLeftWall).resources = newGame.resources ∧
    (poorGame.handleInput inLeftGround).towers = poorGame.towers ∧
    (poorGame.resources < TowerCost → ∀ x y, (poorGame.addTower x y).2 = false) ∧
    (newGame.handleInput inRightGround).grid = newGame.grid :=
  ⟨(c7_rejected_no_mutation newGame inLeftWall (Or.inl (by decide))).2.2.1,
   (c7_rejected_no_mutation poorGame inLeftGround (Or.inr (Or.inl (by decide)))).2.1,
   (c7_rejected_no_mutation poorGame inLeftGround (Or.inr (Or.inl (by decide)))).2.2.2.2.2,
   (c7_rejected_no_mutation newGame inRightGround (Or.inr (Or.inr (by decide)))).1⟩

theorem updateEnemies_spawnTimer (g : Game) : (g.updateEnemies).spawnTimer = g.spawnTimer := rfl

theorem updateEnemies_enemiesThisWave (g : Game) :
    (g.updateEnemies).enemiesThisWave = g.enemiesThisWave := rfl

theorem updateTowers_spawnTimer (g : Game) : (g.updateTowers).spawnTimer = g.spawnTimer := rfl

theorem updateTowers_enemiesThisWave (g : Game) :
    (g.updateTowers).enemiesThisWave = g.enemiesThisWave := rfl

theorem updateLasers_spawnTimer (g : Game) : (g.updateLasers).spawnTimer = g.spawnTimer := rfl

theorem updateLasers_enemiesThisWave (g : Game) :
    (g.updateLasers).enemiesThisWave = g.enemiesThisWave := rfl

theorem updateEnemies_enemies_nil (g : Game) (h : g.enemies = []) :
    (g.updateEnemies).enemies = [] := by
  have hlen := updateEnemies_length g
  rw [show marchingCount g = 0 from by simp [marchingCount, h]] at hlen
  exact List.length_eq_zero.mp hlen

theorem updateTowers_enemies_nil (g : Game) (h : g.enemies = []) :
    (g.updateTowers).enemies = [] := by
  have hlen := updateTowers_enemies_length g
  rw [h] at hlen
  exact List.length_eq_zero.mp hlen

/-- C10.  When the spawn timer expires while the reference path is blocked,
no enemy is instantiated, yet the remaining-to-spawn count is decremented and
the spawn timer reset, so the wave schedule advances without the enemy ever
existing (and, the other hypotheses being only that the state is playing and
the tick has no click, the wave can later complete this way). -/
theorem c10_blocked_spawn (g : Game) (inp : Input)
    (hst : g.state = GameState.StatePlaying) (hwd : g.waveDelay = 0)
    (hetw : 0 < g.enemiesThisWave) (hti : g.spawnTimer ≤ 1)
    (hbl : g.pathBlocked = true) (hen : g.enemies = [])
    (hl : inp.leftPressed = false) (hr : inp.rightPressed = false) :
    (g.update inp).enemies = [] ∧
    (g.update inp).enemiesThisWave = g.enemiesThisWave - 1 ∧
    (g.update inp).spawnTimer = SpawnInterval := by
  have hws : g.waveStep
      = { g with spawnTimer := SpawnInterval, enemiesThisWave := g.enemiesThisWave - 1 } := by
    simp only [Game.waveStep, Game.spawnEnemy, hwd, hbl]
    have h1 : g.spawnTimer - 1 ≤ 0 := by omega
    simp [hetw, h1]
  have hup : g.update inp
      = ((((g.waveStep).updateEnemies).updateTowers).updateLasers).handleInput inp := by
    unfold Game.update
    rw [if_pos hst]
  obtain ⟨-, -, -, hien, -, -, -, -, hist, hietw, -⟩ :=
    handleInput_no_click ((((g.waveStep).updateEnemies).updateTowers).updateLasers) inp hl hr
  have hnil : ((((g.waveStep).updateEnemies).updateTowers).updateLasers).enemies = [] := by
    rw [updateLasers_enemies]
    refine updateTowers_enemies_nil _ ?_
    refine updateEnemies_enemies_nil _ ?_
    rw [hws]
    exact hen
  refine ⟨?_, ?_, ?_⟩
  · rw [hup, hien, hnil]
  · rw [hup, hietw, updateLasers_enemiesThisWave, updateTowers_enemiesThisWave,
      updateEnemies_enemiesThisWave, hws]
  · rw [hup, hist, updateLasers_spawnTimer, updateTowers_spawnTimer,
      updateEnemies_spawnTimer, hws]

def exBlocked : Game := { exState with enemies := [], enemiesThisWave := 3, spawnTimer := 1 }

/-- C10 witness: a blocked state with three enemies still to spawn; the tick
spawns nothing yet consumes one scheduled enemy and resets the interval. -/
theorem c10_witness :
    (exBlocked.update neutralInput).enemies = [] ∧
    (exBlocked.update neutralInput).enemiesThisWave = exBlocked.enemiesThisWave - 1 ∧
    (exBlocked.update neutralInput).spawnTimer = SpawnInterval :=
  c10_blocked_spawn exBlocked neutralInput rfl rfl (by decide) (by decide) rfl rfl rfl rfl

theorem findPath_congr (g g2 : Game) (hgr : g.grid = g2.grid) (s t : Point) :
    g.findPath s t = g2.findPath s t := by
  unfold Game.findPath
  have hw : (fun p : Point => g.isWalkable p.X p.Y) = fun p : Point => g2.isWalkable p.X p.Y := by
    funext p
    unfold Game.isWalkable tileAt
    rw [hgr]
  rw [hw]

/-- Specification of the recalculation pair run after a successful grid edit:
the reference path is recomputed against the edited grid, and each enemy is
repathed from its current cell with index reset to 1, or left untouched when
no path exists. -/
theorem recalc_pair_spec (h0 : Game) :
    (h0.recalculatePath.recalculateEnemyPaths).path
      = (h0.recalculatePath.recalculateEnemyPaths).findPath h0.spawn h0.base ∧
    (h0.recalculatePath.recalculateEnemyPaths).pathBlocked
      = ((h0.recalculatePath.recalculateEnemyPaths).path).isNone ∧
    (h0.recalculatePath.recalculateEnemyPaths).enemies.length = h0.enemies.length ∧
    ∀ i, i < h0.enemies.length →
      (∃ p, (h0.recalculatePath.recalculateEnemyPaths).findPath
              ⟨cellOfPos (h0.enemies.getD i defaultEnemy).X,
               cellOfPos (h0.enemies.getD i defaultEnemy).Y⟩
              (h0.recalculatePath.recalculateEnemyPaths).base = some p ∧
            (h0.recalculatePath.recalculateEnemyPaths).enemies.getD i defaultEnemy
              = { h0.enemies.getD i defaultEnemy with Path := p, PathIndex := 1 })
      ∨ ((h0.recalculatePath.recalculateEnemyPaths).findPath
              ⟨cellOfPos (h0.enemies.getD i defaultEnemy).X,
               cellOfPos (h0.enemies.getD i defaultEnemy).Y⟩
              (h0.recalculatePath.recalculateEnemyPaths).base = none ∧
         (h0.recalculatePath.recalculateEnemyPaths).enemies.getD i defaultEnemy
           = h0.enemies.getD i defaultEnemy) := by
  have hcongr : ∀ s t, h0.findPath s t
      = (h0.recalculatePath.recalculateEnemyPaths).findPath s t := fun s t =>
    findPath_congr _ _ rfl s t
  refine ⟨?_, ?_, ?_, ?_⟩
  · show h0.findPath h0.spawn h0.base = _
    exact hcongr _ _
  · rfl
  · show (h0.enemies.map (recalcEnemy h0.recalculatePath)).length = _
    exact List.length_map _ _
  · intro i hi
    have hget : (h0.recalculatePath.recalculateEnemyPaths).enemies.getD i defaultEnemy
        = recalcEnemy h0.recalculatePath (h0.enemies.getD i defaultEnemy) := by
      show (h0.enemies.map (recalcEnemy h0.recalculatePath)).getD i defaultEnemy = _
      rw [List.getD_eq_getElem _ _ (by simpa using hi), List.getElem_map,
        List.getD_eq_getElem _ _ hi]
    have hfp : ∀ s t, h0.recalculatePath.findPath s t
        = (h0.recalculatePath.recalculateEnemyPaths).findPath s t := fun s t =>
      findPath_congr _ _ rfl s t
    rw [hget]
    unfold recalcEnemy
    dsimp only
    have hbase : (h0.recalculatePath.recalculateEnemyPaths).base = h0.recalculatePath.base := rfl
    rw [hbase, ← hfp]
    rcases hcase : h0.recalculatePath.findPath
        ⟨cellOfPos (h0.enemies.getD i defaultEnemy).X,
         cellOfPos (h0.enemies.getD i defaultEnemy).Y⟩ h0.recalculatePath.base with _ | p
    · right
      exact ⟨rfl, rfl⟩
    · left
      exact ⟨p, rfl, rfl⟩

theorem addTower_fst_enemies (g : Game) (x y : Int) : ((g.addTower x y).1).enemies = g.enemies := by
  simp only [Game.addTower]
  split <;> rfl

theorem addTower_fst_spawn (g : Game) (x y : Int) : ((g.addTower x y).1).spawn = g.spawn := by
  simp only [Game.addTower]
  split <;> rfl

theorem addTower_fst_base (g : Game) (x y : Int) : ((g.addTower x y).1).base = g.base := by
  simp only [Game.addTower]
  split <;> rfl

/-- The C6 conclusions, phrased against the state that was just grid-edited. -/
theorem c6_core (gOrig h0 : Game)
    (hen : h0.enemies = gOrig.enemies) (hspawn : h0.spawn = gOrig.spawn)
    (hbase : h0.base = gOrig.base) :
    (h0.recalculatePath.recalculateEnemyPaths).path
      = (h0.recalculatePath.recalculateEnemyPaths).findPath gOrig.spawn gOrig.base ∧
    (h0.recalculatePath.recalculateEnemyPaths).pathBlocked
      = ((h0.recalculatePath.recalculateEnemyPaths).path).isNone ∧
    (h0.recalculatePath.recalculateEnemyPaths).enemies.length = gOrig.enemies.length ∧
    ∀ i, i < gOrig.enemies.length →
      (∃ p, (h0.recalculatePath.recalculateEnemyPaths).findPath
              ⟨cellOfPos (gOrig.enemies.getD i defaultEnemy).X,
               cellOfPos (gOrig.enemies.getD i defaultEnemy).Y⟩ gOrig.base = some p ∧
            (h0.recalculatePath.recalculateEnemyPaths).enemies.getD i defaultEnemy
              = { gOrig.enemies.getD i defaultEnemy with Path := p, PathIndex := 1 })
      ∨ ((h0.recalculatePath.recalculateEnemyPaths).findPath
              ⟨cellOfPos (gOrig.enemies.getD i defaultEnemy).X,
               cellOfPos (gOrig.enemies.getD i defaultEnemy).Y⟩ gOrig.base = none ∧
         (h0.recalculatePath.recalculateEnemyPaths).enemies.getD i defaultEnemy
           = gOrig.enemies.getD i defaultEnemy) := by
  have hRbase : (h0.recalculatePath.recalculateEnemyPaths).base = gOrig.base := hbase
  obtain ⟨s1, s2, s3, s4⟩ := recalc_pair_spec h0
  rw [hen] at s3 s4
  rw [hspawn, hbase] at s1
  rw [hRbase] at s4
  exact ⟨s1, s2, s3, s4⟩

/-- C6.  A successful tower placement (left click on a ground cell with
sufficient resources) or a successful tower removal (right click on a tower
cell) immediately recomputes the reference spawn-to-base path against the
edited grid, and recomputes every live enemy's path from the grid cell
enclosing its current position to the base with its waypoint index reset
to 1; an enemy for which no path exists keeps its previous path and waypoint
index unchanged. -/
theorem c6_edit_recalculates (g : Game) (inp : Input)
    (hst : g.state = GameState.StatePlaying)
    (hx0 : 0 ≤ inp.mouseX.tdiv CellSize) (hx1 : inp.mouseX.tdiv CellSize < GridWidth)
    (hy0 : 0 ≤ inp.mouseY.tdiv CellSize) (hy1 : inp.mouseY.tdiv CellSize < GridHeight)
    (hcase :
      (inp.leftPressed = true ∧
        tileAt g.grid (inp.mouseX.tdiv CellSize) (inp.mouseY.tdiv CellSize) = TileType.TileGround ∧
        TowerCost ≤ g.resources)
      ∨ (inp.rightPressed = true ∧
        tileAt g.grid (inp.mouseX.tdiv CellSize) (inp.mouseY.tdiv CellSize) = TileType.TileTower)) :
    (g.handleInput inp).path = (g.handleInput inp).findPath g.spawn g.base ∧
    (g.handleInput inp).pathBlocked = ((g.handleInput inp).path).isNone ∧
    (g.handleInput inp).enemies.length = g.enemies.length ∧
    ∀ i, i < g.enemies.length →
      (∃ p, (g.handleInput inp).findPath
              ⟨cellOfPos (g.enemies.getD i defaultEnemy).X,
               cellOfPos (g.enemies.getD i defaultEnemy).Y⟩ g.base = some p ∧
            (g.handleInput inp).enemies.getD i defaultEnemy
              = { g.enemies.getD i defaultEnemy with Path := p, PathIndex := 1 })
      ∨ ((g.handleInput inp).findPath
              ⟨cellOfPos (g.enemies.getD i defaultEnemy).X,
               cellOfPos (g.enemies.getD i defaultEnemy).Y⟩ g.base = none ∧
         (g.handleInput inp).enemies.getD i defaultEnemy = g.enemies.getD i defaultEnemy) := by
  rcases hcase with ⟨hl, ht, hres⟩ | ⟨hr, ht⟩
  · have hnlt : ¬ g.resources < TowerCost := by omega
    have hEq : g.handleInput inp
        = ((({ g with hoverX := inp.mouseX.tdiv CellSize,
                      hoverY := inp.mouseY.tdiv CellSize,
                      hoverValid := true }).addTower (inp.mouseX.tdiv CellSize)
              (inp.mouseY.tdiv CellSize)).1).recalculatePath.recalculateEnemyPaths := by
      simp [Game.handleInput, hx0, hx1, hy0, hy1, hst, hl, ht, Game.addTower, hnlt]
    rw [hEq]
    exact c6_core g _ (addTower_fst_enemies _ _ _) (addTower_fst_spawn _ _ _)
      (addTower_fst_base _ _ _)
  · have hEq : g.handleInput inp
        = (({ g with hoverX := inp.mouseX.tdiv CellSize,
                     hoverY := inp.mouseY.tdiv CellSize,
                     hoverValid := true }).removeTower (inp.mouseX.tdiv CellSize)
             (inp.mouseY.tdiv CellSize)).recalculatePath.recalculateEnemyPaths := by
      simp [Game.handleInput, hx0, hx1, hy0, hy1, hst, hr, ht]
    rw [hEq]
    exact c6_core g _ rfl rfl rfl

/-- A small pocketed board: a 3-cell corridor from the spawn to the base with
a removable tower at (2,2), plus an isolated ground cell at (5,5). -/
def c6Grid : List (List TileType) :=
  setTile (setTile (setTile (setTile (setTile (setTile (setTile
    (List.replicate 15 (List.replicate 20 TileType.TileWall))
    1 1 TileType.TileBase) 2 1 TileType.TileGround) 3 1 TileType.TileGround)
    1 2 TileType.TileGround) 2 2 TileType.TileTower) 3 2 TileType.TileSpawn)
    5 5 TileType.TileGround

/-- An enemy deep into a stale 10-step path, sitting at cell (3,1). -/
def c6EnemyA : Enemy :=
  { X := cellCenter 3, Y := cellCenter 1, PathIndex := 5,
    Path := List.replicate 10 ⟨3, 1⟩, HP := Q.ofInt 50 }

/-- An enemy on the isolated cell (5,5), which cannot reach the base. -/
def c6EnemyB : Enemy :=
  { X := cellCenter 5, Y := cellCenter 5, PathIndex := 2,
    Path := [⟨5, 5⟩, ⟨5, 6⟩], HP := Q.ofInt 50 }

def c6State : Game :=
  { grid := c6Grid, hoverX := 0, hoverY := 0, hoverValid := false,
    spawn := ⟨3, 2⟩, base := ⟨1, 1⟩, path := none, pathBlocked := true,
    enemies := [c6EnemyA, c6EnemyB], spawnTimer := 100, towers := [⟨2, 2, 0⟩], lasers := [],
    state := GameState.StatePlaying, resources := 40,
    currentWave := 1, enemiesThisWave := 0, waveDelay := 0, totalKills := 0 }

/-- A right click on the tower cell (2,2). -/
def c6Input : Input :=
  { mouseX := 85, mouseY := 85, leftPressed := false, rightPressed := true, rPressed := false }

/-- C6 witness: removing the tower at (2,2) recomputes the reference path on
the edited grid, repaths the enemy at (3,1) with waypoint index reset to 1,
and leaves the sealed-off enemy at (5,5) with its stale path untouched. -/
theorem c6_witness :
    (c6State.handleInput c6Input).path
      = (c6State.handleInput c6Input).findPath c6State.spawn c6State.base ∧
    (c6State.handleInput c6Input).enemies.length = c6State.enemies.length ∧
    ((∃ p, (c6State.handleInput c6Input).findPath
            ⟨cellOfPos (c6State.enemies.getD 0 defaultEnemy).X,
             cellOfPos (c6State.enemies.getD 0 defaultEnemy).Y⟩ c6State.base = some p ∧
          (c6State.handleInput c6Input).enemies.getD 0 defaultEnemy
            = { c6State.enemies.getD 0 defaultEnemy with Path := p, PathIndex := 1 })
      ∨ ((c6State.handleInput c6Input).findPath
            ⟨cellOfPos (c6State.enemies.getD 0 defaultEnemy).X,
             cellOfPos (c6State.enemies.getD 0 defaultEnemy).Y⟩ c6State.base = none ∧
         (c6State.handleInput c6Input).enemies.getD 0 defaultEnemy
           = c6State.enemies.getD 0 defaultEnemy)) ∧
    ((∃ p, (c6State.handleInput c6Input).findPath
            ⟨cellOfPos (c6State.enemies.getD 1 defaultEnemy).X,
             cellOfPos (c6State.enemies.getD 1 defaultEnemy).Y⟩ c6State.base = some p ∧
          (c6State.handleInput c6Input).enemies.getD 1 defaultEnemy
            = { c6State.enemies.getD 1 defaultEnemy with Path := p, PathIndex := 1 })
      ∨ ((c6State.handleInput c6Input).findPath
            ⟨cellOfPos (c6State.enemies.getD 1 defaultEnemy).X,
             cellOfPos (c6State.enemies.getD 1 defaultEnemy).Y⟩ c6State.base = none ∧
         (c6State.handleInput c6Input).enemies.getD 1 defaultEnemy
           = c6State.enemies.getD 1 defaultEnemy)) := by
  have h := c6_edit_recalculates c6State c6Input rfl (by decide) (by decide) (by decide)
    (by decide) (Or.inr (by decide))
  exact ⟨h.1, h.2.2.1, h.2.2.2 0 (by decide), h.2.2.2 1 (by decide)⟩

theorem recalc_pair_resources (g : Game) :
    (g.recalculatePath.recalculateEnemyPaths).resources = g.resources := rfl

theorem handleInput_resources_cases (g : Game) (inp : Input) :
    (g.handleInput inp).resources = g.resources
    ∨ ((g.handleInput inp).resources = g.resources - TowerCost ∧ TowerCost ≤ g.resources)
    ∨ (g.handleInput inp).resources = g.resources + TowerCost / 2 := by
  simp only [Game.handleInput]
  cases hhv : (decide (0 ≤ inp.mouseX.tdiv CellSize) && decide (inp.mouseX.tdiv CellSize < GridWidth) &&
      decide (0 ≤ inp.mouseY.tdiv CellSize) && decide (inp.mouseY.tdiv CellSize < GridHeight))
  · left
    simp [hhv]
  · simp only [hhv, if_true, Bool.true_and]
    cases hst2 : (g.state == GameState.StatePlaying)
    · left
      simp
    · simp only [Bool.and_true, if_true]
      cases hcr : (inp.rightPressed &&
          (tileAt g.grid (inp.mouseX.tdiv CellSize) (inp.mouseY.tdiv CellSize)
            == TileType.TileTower))
      case false =>
        cases hcl : (inp.leftPressed &&
            (tileAt g.grid (inp.mouseX.tdiv CellSize) (inp.mouseY.tdiv CellSize)
              == TileType.TileGround))
        case false =>
          left
          simp
        case true =>
          by_cases hpoor : g.resources < TowerCost
          · left
            simp [Game.addTower, hpoor]
          · right
            left
            constructor
            · simp [Game.addTower, hpoor, recalc_pair_resources]
            · omega
      case true =>
        cases hcl : (inp.leftPressed &&
            (tileAt g.grid (inp.mouseX.tdiv CellSize) (inp.mouseY.tdiv CellSize)
              == TileType.TileGround))
        case false =>
          right
          right
          simp [Game.removeTower, recalc_pair_resources]
        case true =>
          exfalso
          rw [Bool.and_eq_true] at hcr hcl
          have h1 := beq_iff_eq.mp hcr.2
          have h2 := beq_iff_eq.mp hcl.2
          rw [h2] at h1
          exact absurd h1 (by decide)


theorem newGame_resources : newGame.resources = StartingResource := rfl

/-- Decomposition of one tick's effect on the resource ledger: apart from a
reset to the starting value, resources change only by the kill rewards of the
cleanup pass, the cost of at most one placement (which is rejected unless
affordable at that moment), and the refund of at most one removal. -/
theorem update_resources_decomp (g : Game) (inp : Input) :
    ∃ kills placed removed : Nat, placed ≤ 1 ∧ removed ≤ 1 ∧
      (placed = 1 → TowerCost ≤ g.resources + KillReward * (kills : Int)) ∧
      ((g.update inp).resources
          = g.resources + KillReward * (kills : Int) - TowerCost * (placed : Int)
            + (TowerCost / 2) * (removed : Int)
        ∨ (g.update inp).resources = StartingResource) := by
  by_cases hst : g.state = GameState.StatePlaying
  · have hup : g.update inp
        = ((((g.waveStep).updateEnemies).updateTowers).updateLasers).handleInput inp := by
      unfold Game.update
      rw [if_pos hst]
    have hmid : ((((g.waveStep).updateEnemies).updateTowers).updateLasers).resources
        = g.resources + KillReward * (deadCount g : Int) := by
      rw [updateLasers_resources, updateTowers_resources, updateEnemies_resources,
        waveStep_resources, waveStep_deadCount]
    rcases handleInput_resources_cases ((((g.waveStep).updateEnemies).updateTowers).updateLasers)
        inp with hc | ⟨hc, hle⟩ | hc
    · refine ⟨deadCount g, 0, 0, by omega, by omega, by omega, Or.inl ?_⟩
      rw [hup, hc, hmid]
      push_cast
      ring
    · refine ⟨deadCount g, 1, 0, by omega, by omega, ?_, Or.inl ?_⟩
      · intro h1
        rw [hmid] at hle
        exact hle
      · rw [hup, hc, hmid]
        push_cast
        ring
    · refine ⟨deadCount g, 0, 1, by omega, by omega, by omega, Or.inl ?_⟩
      rw [hup, hc, hmid]
      push_cast
      ring
  · refine ⟨0, 0, 0, by omega, by omega, by omega, ?_⟩
    unfold Game.update
    rw [if_neg hst]
    by_cases hrk : inp.rPressed = true
    · right
      rw [if_pos hrk]
      exact newGame_resources
    · left
      rw [if_neg hrk]
      push_cast
      ring

theorem update_resources_nonneg (g : Game) (inp : Input) (h : 0 ≤ g.resources) :
    0 ≤ (g.update inp).resources := by
  obtain ⟨k, p, r, hp1, hr1, hguard, hcases⟩ := update_resources_decomp g inp
  rcases hcases with he | he
  · rcases Nat.le_one_iff_eq_zero_or_eq_one.mp hp1 with rfl | rfl
    · rw [he]
      have hk : (0 : Int) ≤ (k : Int) := Int.natCast_nonneg k
      have hr : (0 : Int) ≤ (r : Int) := Int.natCast_nonneg r
      simp only [TowerCost, KillReward] at *
      omega
    · have hg := hguard rfl
      rw [he]
      have hr : (0 : Int) ≤ (r : Int) := Int.natCast_nonneg r
      simp only [TowerCost, KillReward] at *
      omega
  · rw [he]
    decide

theorem foldl_update_nonneg (inputs : List Input) : ∀ g : Game, 0 ≤ g.resources →
    0 ≤ (inputs.foldl Game.update g).resources := by
  induction inputs with
  | nil => intro g h; exact h
  | cons i is ih => intro g h; exact ih _ (update_resources_nonneg g i h)

/-- C9.  In every state reachable from a new game by any input sequence the
resource counter is nonnegative, and across any further tick it changes only
by kill rewards, the cost of at most one placement (rejected when it would
overdraw), the refund of at most one removal, or a reset to the start value. -/
theorem c9_ledger (inputs : List Input) :
    0 ≤ (run inputs).resources ∧
    ∀ inp, ∃ kills placed removed : Nat, placed ≤ 1 ∧ removed ≤ 1 ∧
      (placed = 1 → TowerCost ≤ (run inputs).resources + KillReward * (kills : Int)) ∧
      ((run (inputs ++ [inp])).resources
          = (run inputs).resources + KillReward * (kills : Int)
            - TowerCost * (placed : Int) + (TowerCost / 2) * (removed : Int)
        ∨ (run (inputs ++ [inp])).resources = StartingResource) := by
  constructor
  · exact foldl_update_nonneg inputs newGame (by decide)
  · intro inp
    have hrun : run (inputs ++ [inp]) = (run inputs).update inp := by
      unfold run
      rw [List.foldl_append]
      rfl
    rw [hrun]
    exact update_resources_decomp (run inputs) inp

/-- C9 witness: the invariant evaluated at the empty input sequence. -/
theorem c9_witness : 0 ≤ (run []).resources :=
  (c9_ledger []).1


/-!
Heap correctness layer: the container/heap model preserves the multiset of
entries, keeps the parent-child ordering, and pops a minimum-priority entry.
-/

def pqVal (l : List PQItem) (i : Nat) : Int := (pqGet l i).2

theorem pqSwap_length (l : List PQItem) (i j : Nat) : (pqSwap l i j).length = l.length := by
  simp [pqSwap]

theorem pqGet_eq_get (l : List PQItem) (i : Nat) (h : i < l.length) :
    pqGet l i = l.get ⟨i, h⟩ := by
  rw [pqGet, List.getD_eq_getElem l pqDefault h]
  rfl

theorem getD_set_ne {α : Type} (l : List α) (i j : Nat) (v d : α) (h : i ≠ j) :
    (l.set i v).getD j d = l.getD j d := by
  induction l generalizing i j with
  | nil => rfl
  | cons a l ih =>
    cases i with
    | zero =>
      cases j with
      | zero => exact absurd rfl h
      | succ m => rfl
    | succ n =>
      cases j with
      | zero => rfl
      | succ m =>
        show (l.set n v).getD m d = l.getD m d
        exact ih n m (by omega)

theorem set_multiset_add {α : Type} (l : List α) (i : Nat) (a : α) (hi : i < l.length) :
    ((l.set i a : List α) : Multiset α) + {l.get ⟨i, hi⟩} = (l : Multiset α) + {a} := by
  induction l generalizing i with
  | nil => simp at hi
  | cons b l ih =>
    cases i with
    | zero =>
      simp only [List.set, List.get]
      change (a ::ₘ (l : Multiset α)) + {b} = (b ::ₘ (l : Multiset α)) + {a}
      rw [← Multiset.singleton_add, ← Multiset.singleton_add]
      abel
    | succ n =>
      have hn : n < l.length := by simpa using hi
      simp only [List.set, List.get]
      change (b ::ₘ ((l.set n a : List α) : Multiset α)) + {l.get ⟨n, hn⟩}
        = (b ::ₘ (l : Multiset α)) + {a}
      rw [← Multiset.singleton_add, ← Multiset.singleton_add]
      rw [add_assoc, add_assoc, ih n hn]

theorem pqSwap_perm (l : List PQItem) (i j : Nat) (hi : i < l.length) (hj : j < l.length) :
    (pqSwap l i j).Perm l := by
  rcases eq_or_ne i j with rfl | hne
  · unfold pqSwap
    rw [List.set_set]
    rw [show pqGet l i = l.getD i pqDefault from rfl, set_getD_self]
  · rw [← Multiset.coe_eq_coe]
    unfold pqSwap
    rw [pqGet_eq_get l i hi, pqGet_eq_get l j hj]
    have hj2 : j < (l.set i (l.get ⟨j, hj⟩)).length := by simpa using hj
    have h1 := set_multiset_add (l.set i (l.get ⟨j, hj⟩)) j (l.get ⟨i, hi⟩) hj2
    have hAj : (l.set i (l.get ⟨j, hj⟩)).get ⟨j, hj2⟩ = l.get ⟨j, hj⟩ := by
      simp only [List.get_eq_getElem]
      exact List.getElem_set_ne hne _
    rw [hAj] at h1
    have h2 := set_multiset_add l i (l.get ⟨j, hj⟩) hi
    exact add_right_cancel (h1.trans h2)

theorem pqVal_swap (l : List PQItem) (i j k : Nat) (hi : i < l.length) (hj : j < l.length) :
    pqVal (pqSwap l i j) k
      = if k = j then pqVal l i else if k = i then pqVal l j else pqVal l k := by
  unfold pqVal pqSwap pqGet
  rcases eq_or_ne k j with rfl | hkj
  · rw [getD_set_self _ _ _ _ (by simpa using hj), if_pos rfl]
  · rw [if_neg hkj, getD_set_ne _ j k _ _ (Ne.symm hkj)]
    rcases eq_or_ne k i with rfl | hki
    · rw [getD_set_self _ _ _ _ hi, if_pos rfl]
    · rw [getD_set_ne _ i k _ _ (Ne.symm hki), if_neg hki]

/-- Heap ordering on the prefix of length n: every non-root position in the
prefix is at least its parent. -/
def HeapOrdTo (l : List PQItem) (n : Nat) : Prop :=
  ∀ j, j < n → 0 < j → pqVal l ((j - 1) / 2) ≤ pqVal l j

def HeapOrd (l : List PQItem) : Prop := HeapOrdTo l l.length

theorem heapOrd_root_le (l : List PQItem) (n : Nat) (h : HeapOrdTo l n) :
    ∀ j, j < n → pqVal l 0 ≤ pqVal l j := by
  intro j
  induction j using Nat.strong_induction_on with
  | _ j ih =>
    intro hj
    rcases Nat.eq_zero_or_pos j with rfl | hj0
    · exact le_refl _
    · have hp : (j - 1) / 2 < j := by omega
      exact le_trans (ih _ hp (by omega)) (h j hj hj0)

/-- Sift-up invariant: heap-ordered except possibly at the pair (j, parent j),
and the grandparent of j already bounds the children of j. -/
def UpInv (l : List PQItem) (j : Nat) : Prop :=
  (∀ k, k < l.length → 0 < k → k ≠ j → pqVal l ((k - 1) / 2) ≤ pqVal l k) ∧
  (0 < j → ∀ c, c < l.length → (c - 1) / 2 = j → pqVal l ((j - 1) / 2) ≤ pqVal l c)

theorem heapUpGo_ord : ∀ (fuel : Nat) (l : List PQItem) (j : Nat), j ≤ fuel →
    j < l.length → UpInv l j → HeapOrd (heapUpGo fuel l j) := by
  intro fuel
  induction fuel with
  | zero =>
    intro l j hf hj hinv
    have hj0 : j = 0 := by omega
    subst hj0
    intro k hk hk0
    exact hinv.1 k hk hk0 (by omega)
  | succ fuel ih =>
    intro l j hf hj hinv
    show HeapOrd (heapUpGo (fuel + 1) l j)
    rw [heapUpGo]
    by_cases hj0 : j = 0
    · subst hj0
      rw [if_pos rfl]
      intro k hk hk0
      exact hinv.1 k hk hk0 (by omega)
    · rw [if_neg hj0]
      by_cases hless : pqLess l j ((j - 1) / 2)
      · rw [if_pos hless]
        have hlt : pqVal l j < pqVal l ((j - 1) / 2) := of_decide_eq_true hless
        apply ih (pqSwap l ((j - 1) / 2) j) ((j - 1) / 2) (by omega)
          (by rw [pqSwap_length]; omega)
        constructor
        · intro k hk hk0 hki
          rw [pqSwap_length] at hk
          rw [pqVal_swap l ((j - 1) / 2) j k (by omega) hj,
            pqVal_swap l ((j - 1) / 2) j ((k - 1) / 2) (by omega) hj]
          rcases eq_or_ne k j with rfl | hkj
          · rw [if_pos rfl, if_neg (by omega), if_pos rfl]
            exact le_of_lt hlt
          · rw [if_neg hkj]
            rcases eq_or_ne ((k - 1) / 2) j with hpj | hpj
            · rw [if_pos hpj, if_neg hki]
              exact hinv.2 (by omega) k hk hpj
            · rw [if_neg hpj]
              rcases eq_or_ne ((k - 1) / 2) ((j - 1) / 2) with hpi | hpi
              · rw [if_pos hpi, if_neg hki]
                have hk_ord : pqVal l ((j - 1) / 2) ≤ pqVal l k := by
                  have hh := hinv.1 k hk hk0 hkj
                  rw [hpi] at hh
                  exact hh
                exact le_trans (le_of_lt hlt) hk_ord
              · rw [if_neg hpi, if_neg hki]
                exact hinv.1 k hk hk0 hkj
        · intro hi0 c hc hcp
          rw [pqSwap_length] at hc
          rw [pqVal_swap l ((j - 1) / 2) j c (by omega) hj,
            pqVal_swap l ((j - 1) / 2) j (((j - 1) / 2 - 1) / 2) (by omega) hj,
            if_neg (by omega : ((j - 1) / 2 - 1) / 2 ≠ j),
            if_neg (by omega : ((j - 1) / 2 - 1) / 2 ≠ (j - 1) / 2)]
          have h1 : pqVal l (((j - 1) / 2 - 1) / 2) ≤ pqVal l ((j - 1) / 2) :=
            hinv.1 ((j - 1) / 2) (by omega) hi0 (by omega)
          rcases eq_or_ne c j with rfl | hcj
          · rw [if_pos rfl]
            exact h1
          · rw [if_neg hcj, if_neg (by omega : c ≠ (j - 1) / 2)]
            have h2 : pqVal l ((j - 1) / 2) ≤ pqVal l c := by
              have hh := hinv.1 c hc (by omega) hcj
              rw [hcp] at hh
              exact hh
            exact le_trans h1 h2
      · rw [if_neg hless]
        intro k hk hk0
        rcases eq_or_ne k j with rfl | hkj
        · have hge : ¬ pqVal l k < pqVal l ((k - 1) / 2) := by
            intro hcon
            exact hless (decide_eq_true hcon)
          omega
        · exact hinv.1 k hk hk0 hkj

/-- Sift-down invariant on the prefix of length n: heap-ordered except
possibly below the hole i, whose own parent already bounds i's children. -/
def DownInv (l : List PQItem) (i n : Nat) : Prop :=
  (∀ k, k < n → 0 < k → (k - 1) / 2 ≠ i → pqVal l ((k - 1) / 2) ≤ pqVal l k) ∧
  (0 < i → ∀ c, c < n → (c - 1) / 2 = i → pqVal l ((i - 1) / 2) ≤ pqVal l c)

theorem downInv_swap (l : List PQItem) (i n j : Nat) (hn : n ≤ l.length)
    (hij : 2 * i + 1 ≤ j) (hjn : j < n) (hj2 : j ≤ 2 * i + 2)
    (hmin : ∀ c, c < n → 0 < c → (c - 1) / 2 = i → pqVal l j ≤ pqVal l c)
    (hinv : DownInv l i n) (hlt : pqVal l j < pqVal l i) :
    DownInv (pqSwap l i j) j n := by
  have hil : i < l.length := by omega
  have hjl : j < l.length := by omega
  constructor
  · intro k hk hk0 hkp
    rw [pqVal_swap l i j k hil hjl, pqVal_swap l i j ((k - 1) / 2) hil hjl]
    rcases eq_or_ne k j with heqkj | hkj
    · rw [if_pos heqkj, if_neg (by omega : (k - 1) / 2 ≠ j), if_pos (by omega : (k - 1) / 2 = i)]
      exact le_of_lt hlt
    · rw [if_neg hkj]
      rcases eq_or_ne k i with heqki | hki
      · rw [if_pos heqki, if_neg (by omega : (k - 1) / 2 ≠ j),
          if_neg (by omega : (k - 1) / 2 ≠ i)]
        rw [heqki]
        exact hinv.2 (by omega) j hjn (by omega)
      · rw [if_neg hki]
        rcases eq_or_ne ((k - 1) / 2) i with hpi | hpi
        · rw [if_neg hkp, if_pos hpi]
          exact hmin k hk hk0 hpi
        · rw [if_neg hkp, if_neg hpi]
          exact hinv.1 k hk hk0 hpi
  · intro hj0 c hc hcp
    have hci : c ≠ i := by omega
    have hcj : c ≠ j := by omega
    rw [pqVal_swap l i j c hil hjl, pqVal_swap l i j ((j - 1) / 2) hil hjl]
    rw [if_neg hcj, if_neg hci, if_neg (by omega : (j - 1) / 2 ≠ j),
      if_pos (by omega : (j - 1) / 2 = i)]
    have hh := hinv.1 c hc (by omega) (by omega : (c - 1) / 2 ≠ i)
    rw [hcp] at hh
    exact hh

theorem heapDownGo_ord : ∀ (fuel : Nat) (l : List PQItem) (i n : Nat), n - i ≤ fuel →
    n ≤ l.length → DownInv l i n → HeapOrdTo (heapDownGo fuel l i n) n := by
  intro fuel
  induction fuel with
  | zero =>
    intro l i n hf hn hinv k hk hk0
    exact hinv.1 k hk hk0 (by omega)
  | succ fuel ih =>
    intro l i n hf hn hinv
    rw [heapDownGo]
    dsimp only
    by_cases hj1 : n ≤ 2 * i + 1
    · rw [if_pos hj1]
      intro k hk hk0
      exact hinv.1 k hk hk0 (by omega)
    · rw [if_neg hj1]
      by_cases hsel : (decide (2 * i + 1 + 1 < n) && pqLess l (2 * i + 1 + 1) (2 * i + 1)) = true
      · rw [if_pos hsel]
        rw [Bool.and_eq_true] at hsel
        have hc2 : 2 * i + 1 + 1 < n := of_decide_eq_true hsel.1
        have hless2 : pqVal l (2 * i + 1 + 1) < pqVal l (2 * i + 1) := of_decide_eq_true hsel.2
        have hmin : ∀ c, c < n → 0 < c → (c - 1) / 2 = i → pqVal l (2 * i + 1 + 1) ≤ pqVal l c := by
          intro c hc hc0 hcp
          rcases (by omega : c = 2 * i + 1 ∨ c = 2 * i + 1 + 1) with rfl | rfl
          · exact le_of_lt hless2
          · exact le_refl _
        by_cases hless : pqLess l (2 * i + 1 + 1) i = true
        · rw [if_pos hless]
          have htest : n - (2 * i + 1 + 1) ≤ fuel := by omega
          exact ih (pqSwap l i (2 * i + 1 + 1)) (2 * i + 1 + 1) n htest
            (by rw [pqSwap_length]; omega)
            (downInv_swap l i n (2 * i + 1 + 1) hn (by omega) hc2 (by omega) hmin hinv
              (of_decide_eq_true hless))
        · rw [if_neg hless]
          intro k hk hk0
          rcases eq_or_ne ((k - 1) / 2) i with hpi | hpi
          · have hge : pqVal l i ≤ pqVal l (2 * i + 1 + 1) := by
              have hnl : ¬ pqVal l (2 * i + 1 + 1) < pqVal l i := by
                intro hcon
                exact hless (decide_eq_true hcon)
              omega
            rw [hpi]
            exact le_trans hge (hmin k hk hk0 hpi)
          · exact hinv.1 k hk hk0 hpi
      · rw [if_neg hsel]
        have hselF : (decide (2 * i + 1 + 1 < n) && pqLess l (2 * i + 1 + 1) (2 * i + 1)) = false := by
          cases hb : (decide (2 * i + 1 + 1 < n) && pqLess l (2 * i + 1 + 1) (2 * i + 1)) with
          | false => rfl
          | true => exact absurd hb hsel
        have hmin : ∀ c, c < n → 0 < c → (c - 1) / 2 = i → pqVal l (2 * i + 1) ≤ pqVal l c := by
          intro c hc hc0 hcp
          rcases (by omega : c = 2 * i + 1 ∨ c = 2 * i + 1 + 1) with rfl | rfl
          · exact le_refl _
          · have hc2 : 2 * i + 1 + 1 < n := by omega
            have hpless : pqLess l (2 * i + 1 + 1) (2 * i + 1) = false := by
              by_cases hd : pqLess l (2 * i + 1 + 1) (2 * i + 1) = true
              · exfalso
                rw [decide_eq_true hc2, hd] at hselF
                exact absurd hselF (by decide)
              · cases hb : pqLess l (2 * i + 1 + 1) (2 * i + 1) with
                | false => rfl
                | true => exact absurd hb hd
            have hge : ¬ pqVal l (2 * i + 1 + 1) < pqVal l (2 * i + 1) := by
              intro hcon
              rw [show pqLess l (2 * i + 1 + 1) (2 * i + 1) = true from decide_eq_true hcon]
                at hpless
              exact absurd hpless (by decide)
            omega
        by_cases hless : pqLess l (2 * i + 1) i = true
        · rw [if_pos hless]
          have htest2 : n - (2 * i + 1) ≤ fuel := by omega
          exact ih (pqSwap l i (2 * i + 1)) (2 * i + 1) n htest2
            (by rw [pqSwap_length]; omega)
            (downInv_swap l i n (2 * i + 1) hn (by omega) (by omega) (by omega) hmin hinv
              (of_decide_eq_true hless))
        · rw [if_neg hless]
          intro k hk hk0
          rcases eq_or_ne ((k - 1) / 2) i with hpi | hpi
          · have hge : pqVal l i ≤ pqVal l (2 * i + 1) := by
              have hnl : ¬ pqVal l (2 * i + 1) < pqVal l i := by
                intro hcon
                exact hless (decide_eq_true hcon)
              omega
            rw [hpi]
            exact le_trans hge (hmin k hk hk0 hpi)
          · exact hinv.1 k hk hk0 hpi


/-! Permutation and stability facts for the heap operations. -/

theorem heapUpGo_perm : ∀ (fuel : Nat) (l : List PQItem) (j : Nat), j < l.length →
    ((heapUpGo fuel l j : List PQItem) : Multiset PQItem) = (l : Multiset PQItem) := by
  intro fuel
  induction fuel with
  | zero => intro l j _; rfl
  | succ fuel ih =>
    intro l j hj
    rw [heapUpGo]
    by_cases hj0 : j = 0
    · rw [if_pos hj0]
    · rw [if_neg hj0]
      by_cases hless : pqLess l j ((j - 1) / 2) = true
      · rw [if_pos hless]
        rw [ih (pqSwap l ((j - 1) / 2) j) ((j - 1) / 2) (by rw [pqSwap_length]; omega)]
        exact Multiset.coe_eq_coe.mpr (pqSwap_perm l ((j - 1) / 2) j (by omega) hj)
      · rw [if_neg hless]

theorem heapDownGo_perm : ∀ (fuel : Nat) (l : List PQItem) (i n : Nat), n ≤ l.length →
    ((heapDownGo fuel l i n : List PQItem) : Multiset PQItem) = (l : Multiset PQItem) := by
  intro fuel
  induction fuel with
  | zero => intro l i n _; rfl
  | succ fuel ih =>
    intro l i n hn
    rw [heapDownGo]
    dsimp only
    by_cases hj1 : n ≤ 2 * i + 1
    · rw [if_pos hj1]
    · rw [if_neg hj1]
      by_cases hsel : (decide (2 * i + 1 + 1 < n) && pqLess l (2 * i + 1 + 1) (2 * i + 1)) = true
      · rw [if_pos hsel]
        rw [Bool.and_eq_true] at hsel
        have hc2 : 2 * i + 1 + 1 < n := of_decide_eq_true hsel.1
        by_cases hless : pqLess l (2 * i + 1 + 1) i = true
        · rw [if_pos hless]
          rw [ih (pqSwap l i (2 * i + 1 + 1)) (2 * i + 1 + 1) n (by rw [pqSwap_length]; omega)]
          exact Multiset.coe_eq_coe.mpr (pqSwap_perm l i (2 * i + 1 + 1) (by omega) (by omega))
        · rw [if_neg hless]
      · rw [if_neg hsel]
        by_cases hless : pqLess l (2 * i + 1) i = true
        · rw [if_pos hless]
          rw [ih (pqSwap l i (2 * i + 1)) (2 * i + 1) n (by rw [pqSwap_length]; omega)]
          exact Multiset.coe_eq_coe.mpr (pqSwap_perm l i (2 * i + 1) (by omega) (by omega))
        · rw [if_neg hless]

theorem pqGet_swap_other (l : List PQItem) (i j m : Nat) (hmi : m ≠ i) (hmj : m ≠ j) :
    pqGet (pqSwap l i j) m = pqGet l m := by
  unfold pqSwap pqGet
  rw [getD_set_ne _ j m _ _ (Ne.symm hmj), getD_set_ne _ i m _ _ (Ne.symm hmi)]

theorem heapDownGo_stable : ∀ (fuel : Nat) (l : List PQItem) (i n m : Nat), n ≤ m →
    pqGet (heapDownGo fuel l i n) m = pqGet l m := by
  intro fuel
  induction fuel with
  | zero => intro l i n m _; rfl
  | succ fuel ih =>
    intro l i n m hm
    rw [heapDownGo]
    dsimp only
    by_cases hj1 : n ≤ 2 * i + 1
    · rw [if_pos hj1]
    · rw [if_neg hj1]
      by_cases hsel : (decide (2 * i + 1 + 1 < n) && pqLess l (2 * i + 1 + 1) (2 * i + 1)) = true
      · rw [if_pos hsel]
        rw [Bool.and_eq_true] at hsel
        have hc2 : 2 * i + 1 + 1 < n := of_decide_eq_true hsel.1
        by_cases hless : pqLess l (2 * i + 1 + 1) i = true
        · rw [if_pos hless]
          rw [ih (pqSwap l i (2 * i + 1 + 1)) (2 * i + 1 + 1) n m hm]
          exact pqGet_swap_other l i (2 * i + 1 + 1) m (by omega) (by omega)
        · rw [if_neg hless]
      · rw [if_neg hsel]
        by_cases hless : pqLess l (2 * i + 1) i = true
        · rw [if_pos hless]
          rw [ih (pqSwap l i (2 * i + 1)) (2 * i + 1) n m hm]
          exact pqGet_swap_other l i (2 * i + 1) m (by omega) (by omega)
        · rw [if_neg hless]

theorem heapDownGo_length : ∀ (fuel : Nat) (l : List PQItem) (i n : Nat),
    (heapDownGo fuel l i n).length = l.length := by
  intro fuel
  induction fuel with
  | zero => intro l i n; rfl
  | succ fuel ih =>
    intro l i n
    rw [heapDownGo]
    dsimp only
    by_cases hj1 : n ≤ 2 * i + 1
    · rw [if_pos hj1]
    · rw [if_neg hj1]
      by_cases hsel : (decide (2 * i + 1 + 1 < n) && pqLess l (2 * i + 1 + 1) (2 * i + 1)) = true
      · rw [if_pos hsel]
        by_cases hless : pqLess l (2 * i + 1 + 1) i = true
        · rw [if_pos hless, ih, pqSwap_length]
        · rw [if_neg hless]
      · rw [if_neg hsel]
        by_cases hless : pqLess l (2 * i + 1) i = true
        · rw [if_pos hless, ih, pqSwap_length]
        · rw [if_neg hless]

theorem getD_append_lt {α : Type} (l l2 : List α) (m : Nat) (d : α) (h : m < l.length) :
    (l ++ l2).getD m d = l.getD m d := by
  induction l generalizing m with
  | nil => simp at h
  | cons a l ih =>
    cases m with
    | zero => rfl
    | succ k =>
      show (l ++ l2).getD k d = l.getD k d
      exact ih k (by simp only [List.length_cons] at h; omega)

theorem getD_append_self {α : Type} (l : List α) (x d : α) :
    (l ++ [x]).getD l.length d = x := by
  induction l with
  | nil => rfl
  | cons a l ih => exact ih

theorem getD_take {α : Type} (l : List α) (n m : Nat) (d : α) (h : m < n) :
    (l.take n).getD m d = l.getD m d := by
  induction l generalizing n m with
  | nil => simp
  | cons a l ih =>
    cases n with
    | zero => omega
    | succ n =>
      cases m with
      | zero => rfl
      | succ m =>
        show (l.take n).getD m d = l.getD m d
        exact ih n m (by omega)

/-! heap.Push: the result is a heap holding the old entries plus the new one. -/

theorem heapPush_perm (l : List PQItem) (x : PQItem) :
    ((heapPush l x : List PQItem) : Multiset PQItem) = x ::ₘ (l : Multiset PQItem) := by
  unfold heapPush heapUp
  rw [heapUpGo_perm _ _ _ (by simp)]
  simp

theorem heapPush_length (l : List PQItem) (x : PQItem) :
    (heapPush l x).length = l.length + 1 := by
  have h := congrArg Multiset.card (heapPush_perm l x)
  simpa using h

theorem heapPush_mem (l : List PQItem) (x a : PQItem) :
    a ∈ heapPush l x ↔ a = x ∨ a ∈ l := by
  rw [← Multiset.mem_coe, heapPush_perm, Multiset.mem_cons, Multiset.mem_coe]

theorem heapPush_ord (l : List PQItem) (x : PQItem) (h : HeapOrd l) :
    HeapOrd (heapPush l x) := by
  unfold heapPush heapUp
  apply heapUpGo_ord l.length (l ++ [x]) l.length (le_refl _) (by simp)
  constructor
  · intro k hk hk0 hkj
    have hklen : k < l.length := by
      simp only [List.length_append, List.length_cons, List.length_nil] at hk
      omega
    have hvk : pqVal (l ++ [x]) k = pqVal l k := by
      unfold pqVal pqGet; rw [getD_append_lt _ _ _ _ hklen]
    have hvp : pqVal (l ++ [x]) ((k - 1) / 2) = pqVal l ((k - 1) / 2) := by
      unfold pqVal pqGet; rw [getD_append_lt _ _ _ _ (by omega)]
    rw [hvk, hvp]
    exact h k hklen hk0
  · intro hj0 c hc hcp
    have : False := by
      simp only [List.length_append, List.length_cons, List.length_nil] at hc
      omega
    exact this.elim

/-! heap.Pop: returns the root, which is minimal, and the rest is a heap
holding the remaining entries. -/

theorem heapPop_fst (l : List PQItem) (h0 : 0 < l.length) :
    (heapPop l).1 = pqGet l 0 := by
  unfold heapPop heapDown
  dsimp only
  rw [heapDownGo_stable _ _ _ _ _ (le_refl _)]
  unfold pqSwap pqGet
  rw [getD_set_self _ _ _ _ (by rw [List.length_set]; omega)]

theorem heapPop_perm (l : List PQItem) (h0 : 0 < l.length) :
    (heapPop l).1 ::ₘ ((heapPop l).2 : Multiset PQItem) = (l : Multiset PQItem) := by
  unfold heapPop heapDown
  dsimp only
  set n := l.length - 1 with hn
  set l2 := heapDownGo (n - 0) (pqSwap l 0 n) 0 n with hl2
  have hlen2 : l2.length = l.length := by
    rw [hl2, heapDownGo_length, pqSwap_length]
  have hperm : (l2 : Multiset PQItem) = (l : Multiset PQItem) := by
    rw [hl2, heapDownGo_perm _ _ _ _ (by rw [pqSwap_length]; omega)]
    exact Multiset.coe_eq_coe.mpr (pqSwap_perm l 0 n (by omega) (by omega))
  have hsplit : l2 = l2.take n ++ [l2.get ⟨n, by omega⟩] := by
    conv_lhs => rw [← List.take_append_drop n l2]
    congr 1
    rw [List.drop_eq_getElem_cons (by omega)]
    have hd : l2.drop (n + 1) = [] := by
      apply List.drop_eq_nil_of_le
      omega
    rw [hd]
    rfl
  have hget : pqGet l2 n = l2.get ⟨n, by omega⟩ := pqGet_eq_get l2 n (by omega)
  rw [hget, Multiset.cons_coe, ← hperm]
  conv_rhs => rw [hsplit]
  exact Multiset.coe_eq_coe.mpr (List.perm_append_singleton _ _).symm

theorem heapPop_length (l : List PQItem) (h0 : 0 < l.length) :
    (heapPop l).2.length = l.length - 1 := by
  unfold heapPop heapDown
  dsimp only
  rw [List.length_take, heapDownGo_length, pqSwap_length]
  omega

theorem heapPop_ord (l : List PQItem) (h0 : 0 < l.length) (h : HeapOrd l) :
    HeapOrd (heapPop l).2 := by
  unfold heapPop heapDown
  dsimp only
  set n := l.length - 1 with hn
  have hswlen : (pqSwap l 0 n).length = l.length := pqSwap_length l 0 n
  have hord2 : HeapOrdTo (heapDownGo (n - 0) (pqSwap l 0 n) 0 n) n := by
    apply heapDownGo_ord (n - 0) (pqSwap l 0 n) 0 n (le_refl _) (by omega)
    constructor
    · intro k hk hk0 hkp
      have hvk : pqVal (pqSwap l 0 n) k = pqVal l k := by
        rw [pqVal_swap l 0 n k (by omega) (by omega), if_neg (by omega), if_neg (by omega)]
      have hvp : pqVal (pqSwap l 0 n) ((k - 1) / 2) = pqVal l ((k - 1) / 2) := by
        rw [pqVal_swap l 0 n ((k - 1) / 2) (by omega) (by omega),
          if_neg (by omega), if_neg (by omega)]
      rw [hvk, hvp]
      exact h k (by omega) hk0
    · intro h00
      exact absurd h00 (by omega)
  intro k hk hk0
  have hlen : ((heapDownGo (n - 0) (pqSwap l 0 n) 0 n).take n).length = n := by
    rw [List.length_take, heapDownGo_length, hswlen]
    omega
  rw [hlen] at hk
  have hvk : pqVal ((heapDownGo (n - 0) (pqSwap l 0 n) 0 n).take n) k
      = pqVal (heapDownGo (n - 0) (pqSwap l 0 n) 0 n) k := by
    unfold pqVal pqGet
    rw [getD_take _ _ _ _ hk]
  have hvp : pqVal ((heapDownGo (n - 0) (pqSwap l 0 n) 0 n).take n) ((k - 1) / 2)
      = pqVal (heapDownGo (n - 0) (pqSwap l 0 n) 0 n) ((k - 1) / 2) := by
    unfold pqVal pqGet
    rw [getD_take _ _ _ _ (by omega)]
  rw [hvk, hvp]
  exact hord2 k hk hk0

theorem heapPop_min (l : List PQItem) (h0 : 0 < l.length) (h : HeapOrd l) :
    ∀ x ∈ (heapPop l).2, (heapPop l).1.2 ≤ x.2 := by
  intro x hx
  have hxl : x ∈ l := by
    rw [← Multiset.mem_coe, ← heapPop_perm l h0]
    exact Multiset.mem_cons_of_mem (Multiset.mem_coe.mpr hx)
  rcases List.mem_iff_get.mp hxl with ⟨k, hk⟩
  have hroot := heapOrd_root_le l l.length h k k.isLt
  rw [heapPop_fst l h0]
  unfold pqVal at hroot
  rw [pqGet_eq_get l k k.isLt, hk] at hroot
  exact hroot

theorem heapPop_mem_cases (l : List PQItem) (h0 : 0 < l.length) (x : PQItem) (hx : x ∈ l) :
    x = (heapPop l).1 ∨ x ∈ (heapPop l).2 := by
  have : x ∈ (heapPop l).1 ::ₘ ((heapPop l).2 : Multiset PQItem) := by
    rw [heapPop_perm l h0]
    exact Multiset.mem_coe.mpr hx
  rcases Multiset.mem_cons.mp this with h1 | h2
  · exact Or.inl h1
  · exact Or.inr (Multiset.mem_coe.mp h2)

theorem heapPop_mem_of_mem (l : List PQItem) (h0 : 0 < l.length) (x : PQItem)
    (hx : x ∈ (heapPop l).2) : x ∈ l := by
  rw [← Multiset.mem_coe, ← heapPop_perm l h0]
  exact Multiset.mem_cons_of_mem (Multiset.mem_coe.mpr hx)

/-!
Chains of 4-adjacent cells: the specification-side notions that C4 and C5
compare findPath against, and the Manhattan-distance lower bound that makes
the heuristic admissible.
-/

/-- b is one axis step from a. -/
def AdjP (a b : Point) : Prop := ∃ d ∈ dirs, b = addPoint a d

theorem adjP_iff (a b : Point) : AdjP a b ↔
    (b = addPoint a ⟨0, -1⟩ ∨ b = addPoint a ⟨0, 1⟩ ∨
      b = addPoint a ⟨-1, 0⟩ ∨ b = addPoint a ⟨1, 0⟩) := by
  constructor
  · rintro ⟨d, hd, rfl⟩
    simp only [dirs, List.mem_cons, List.not_mem_nil, or_false] at hd
    rcases hd with rfl | rfl | rfl | rfl
    · exact Or.inl rfl
    · exact Or.inr (Or.inl rfl)
    · exact Or.inr (Or.inr (Or.inl rfl))
    · exact Or.inr (Or.inr (Or.inr rfl))
  · intro h
    rcases h with rfl | rfl | rfl | rfl
    · exact ⟨_, by simp [dirs], rfl⟩
    · exact ⟨_, by simp [dirs], rfl⟩
    · exact ⟨_, by simp [dirs], rfl⟩
    · exact ⟨_, by simp [dirs], rfl⟩

instance adjP_decidable (a b : Point) : Decidable (AdjP a b) :=
  decidable_of_iff _ (adjP_iff a b).symm

/-- The spec's notion for C4: a chain of 4-adjacent cells from s to t with
every cell walkable. -/
def WalkableChain (walk : Point → Bool) (s t : Point) (p : List Point) : Prop :=
  p.head? = some s ∧ p.getLast? = some t ∧ List.Chain' AdjP p ∧ ∀ q ∈ p, walk q = true

/-- Executable check for adjacency chains, used only to decide concrete cases. -/
def chainOkB : List Point → Bool
  | [] => true
  | [_] => true
  | a :: b :: rest => decide (AdjP a b) && chainOkB (b :: rest)

theorem chainOkB_iff (p : List Point) : chainOkB p = true ↔ List.Chain' AdjP p := by
  induction p with
  | nil => simp [chainOkB]
  | cons a tl ih =>
    cases tl with
    | nil => simp [chainOkB]
    | cons b rest =>
      rw [List.chain'_cons, ← ih]
      show (decide (AdjP a b) && chainOkB (b :: rest)) = true ↔ _
      rw [Bool.and_eq_true, decide_eq_true_eq]

instance walkableChain_decidable (walk : Point → Bool) (s t : Point) (p : List Point) :
    Decidable (WalkableChain walk s t p) :=
  decidable_of_iff (p.head? = some s ∧ p.getLast? = some t ∧ chainOkB p = true ∧
      p.all walk = true) (by
    unfold WalkableChain
    rw [chainOkB_iff, List.all_eq_true])

/-- What findPath actually follows: every cell except the source walkable. -/
def TailWalkableChain (walk : Point → Bool) (s t : Point) (p : List Point) : Prop :=
  p.head? = some s ∧ p.getLast? = some t ∧ List.Chain' AdjP p ∧ ∀ q ∈ p.tail, walk q = true

def walkOf (g : Game) : Point → Bool := fun q => g.isWalkable q.X q.Y

theorem walkableChain_tail (walk : Point → Bool) (s t : Point) (p : List Point)
    (h : WalkableChain walk s t p) : TailWalkableChain walk s t p :=
  ⟨h.1, h.2.1, h.2.2.1, fun q hq => h.2.2.2 q (List.mem_of_mem_tail hq)⟩

theorem heuristic_nonneg (a b : Point) : 0 ≤ heuristic a b := by
  simp only [heuristic]
  split <;> split <;> omega

theorem heuristic_self (a : Point) : heuristic a a = 0 := by
  simp only [heuristic]
  norm_num

theorem heuristic_step (a b t : Point) (h : AdjP a b) :
    heuristic a t ≤ heuristic b t + 1 := by
  rcases h with ⟨d, hd, rfl⟩
  simp only [dirs, List.mem_cons, List.not_mem_nil, or_false] at hd
  rcases hd with rfl | rfl | rfl | rfl <;>
    · simp only [heuristic, addPoint]
      split <;> split <;> split <;> split <;> omega

/-- The heuristic is a lower bound on the number of steps of any chain. -/
theorem chain_manhattan : ∀ (p : List Point) (a t : Point), List.Chain' AdjP (a :: p) →
    (a :: p).getLast? = some t → heuristic a t ≤ (p.length : Int) := by
  intro p
  induction p with
  | nil =>
    intro a t _ hlast
    have : a = t := by
      simp only [List.getLast?_singleton, Option.some.injEq] at hlast
      exact hlast
    subst this
    rw [heuristic_self]
    exact le_refl _
  | cons b p ih =>
    intro a t hchain hlast
    have hab : AdjP a b := (List.chain'_cons.mp hchain).1
    have hch : List.Chain' AdjP (b :: p) := (List.chain'_cons.mp hchain).2
    have hlast2 : (b :: p).getLast? = some t := by
      rw [← List.getLast?_cons_cons]
      exact hlast
    have hb := ih b t hch hlast2
    have hstep := heuristic_step a b t hab
    simp only [List.length_cons]
    push_cast
    omega


def ringRow : List TileType :=
  TileType.TileWall :: List.replicate 18 TileType.TileGround ++ [TileType.TileWall]

def wallRow : List TileType := List.replicate 20 TileType.TileWall

def ringGrid : List (List TileType) :=
  wallRow :: List.replicate 13 ringRow ++ [wallRow]

/-- The C5 scenario: a 20 by 15 board, open ground everywhere except the
bordering wall ring, spawn at (10,1), base at (10,13). -/
def ringGame : Game :=
  { grid := ringGrid, hoverX := 0, hoverY := 0, hoverValid := false,
    spawn := ⟨10, 1⟩, base := ⟨10, 13⟩, path := none, pathBlocked := false,
    enemies := [], spawnTimer := 0, towers := [], lasers := [],
    state := GameState.StatePlaying, resources := StartingResource,
    currentWave := 1, enemiesThisWave := EnemiesPerWave, waveDelay := 300,
    totalKills := 0 }

/-- The straight vertical line from (10,1) down to (10,13): 13 cells. -/
def straight13 : List Point := (List.range 13).map (fun k => ⟨10, 1 + (k : Int)⟩)

/-!
Invariants of the A* search loop.  assignedSet/ghat/phi form the decreasing
measure showing SearchFuel is never exhausted; SInv holds at every loop head
and MInv between the pop of `cur` and the completion of its relaxation pass.
-/

/-- Cells of the bounding set with an assigned g-score. -/
def assignedSet (D : Finset Point) (st : AStar) : Finset Point :=
  D.filter (fun c => (st.gScore c).isSome)

/-- Capped g-score for the loop measure: unassigned counts as D.card. -/
def ghat (D : Finset Point) (st : AStar) (c : Point) : Nat :=
  (st.gScore c).getD D.card

/-- The decreasing measure of the search loop. -/
def phi (D : Finset Point) (st : AStar) : Nat :=
  D.sum (ghat D st) + st.openList.length

/-- Direction d away from cur has been relaxed: its g-score is at most gcur+1. -/
def RelaxedDir (walk : Point → Bool) (st : AStar) (cur : Point) (gcur : Nat) (d : Point) : Prop :=
  walk (addPoint cur d) = true →
    ∃ gn, st.gScore (addPoint cur d) = some gn ∧ gn ≤ gcur + 1

/-- Invariants of the A* state at every head of the search loop. -/
structure SInv (walk : Point → Bool) (start goal : Point) (D : Finset Point)
    (st : AStar) : Prop where
  hord : HeapOrd st.openList
  hstart : st.gScore start = some 0
  hopen : ∀ e ∈ st.openList, ∃ gu, st.gScore e.1 = some gu ∧
    (e.1 = start ∨ (gu : Int) + heuristic e.1 goal ≤ e.2)
  hassign : ∀ u, (st.gScore u).isSome = true → u = start ∨ walk u = true
  hcard : ∀ u gu, st.gScore u = some gu → gu < (assignedSet D st).card
  hcame : ∀ p q, st.cameFrom p = some q → ∃ gp gq, st.gScore p = some gp ∧
    st.gScore q = some gq ∧ gq < gp ∧ AdjP q p ∧ walk p = true
  hcf : ∀ u, (st.gScore u).isSome = true → u ≠ start → (st.cameFrom u).isSome = true
  hrelax : ∀ u gu, st.gScore u = some gu →
    (∃ e ∈ st.openList, e.1 = u ∧ e.2 ≤ (gu : Int) + heuristic u goal) ∨
    (u ≠ goal ∧ ∀ d ∈ dirs, RelaxedDir walk st u gu d)

/-- The loop invariant during the relaxation pass of the popped cell cur:
cur itself is exempt from the relaxation clause. -/
structure MInv (walk : Point → Bool) (start goal : Point) (D : Finset Point)
    (cur : Point) (gcur : Nat) (st : AStar) : Prop where
  hord : HeapOrd st.openList
  hstart : st.gScore start = some 0
  hopen : ∀ e ∈ st.openList, ∃ gu, st.gScore e.1 = some gu ∧
    (e.1 = start ∨ (gu : Int) + heuristic e.1 goal ≤ e.2)
  hassign : ∀ u, (st.gScore u).isSome = true → u = start ∨ walk u = true
  hcard : ∀ u gu, st.gScore u = some gu → gu < (assignedSet D st).card
  hcame : ∀ p q, st.cameFrom p = some q → ∃ gp gq, st.gScore p = some gp ∧
    st.gScore q = some gq ∧ gq < gp ∧ AdjP q p ∧ walk p = true
  hcf : ∀ u, (st.gScore u).isSome = true → u ≠ start → (st.cameFrom u).isSome = true
  hcur : st.gScore cur = some gcur
  hrelax : ∀ u gu, st.gScore u = some gu → u ≠ cur →
    (∃ e ∈ st.openList, e.1 = u ∧ e.2 ≤ (gu : Int) + heuristic u goal) ∨
    (u ≠ goal ∧ ∀ d ∈ dirs, RelaxedDir walk st u gu d)

theorem sInv_init (walk : Point → Bool) (start goal : Point) (D : Finset Point)
    (hsD : start ∈ D) : SInv walk start goal D (initState start) := by
  constructor
  · intro j hj hj0
    simp only [initState, List.length_cons, List.length_nil] at hj
    omega
  · simp [initState]
  · intro e he
    simp only [initState, List.mem_singleton] at he
    subst he
    exact ⟨0, by simp [initState], Or.inl rfl⟩
  · intro u hu
    by_cases h : u = start
    · exact Or.inl h
    · simp [initState, h] at hu
  · intro u gu hgu
    have hgu0 : gu = 0 := by
      by_cases h : u = start
      · simp [initState, h] at hgu
        omega
      · simp [initState, h] at hgu
    have hmem : start ∈ assignedSet D (initState start) := by
      simp [assignedSet, Finset.mem_filter, initState, hsD]
    have hpos : 0 < (assignedSet D (initState start)).card :=
      Finset.card_pos.mpr ⟨start, hmem⟩
    omega
  · intro p q h
    simp [initState] at h
  · intro u hu hne
    by_cases h : u = start
    · exact absurd h hne
    · simp [initState, h] at hu
  · intro u gu hgu
    by_cases h : u = start
    · subst h
      left
      refine ⟨(u, 0), by simp [initState], rfl, ?_⟩
      have h0 : gu = 0 := by
        simp [initState] at hgu
        omega
      subst h0
      simpa using heuristic_nonneg u goal
    · simp [initState, h] at hgu

theorem sum_drop_le (D : Finset Point) (f f2 : Point → Nat) (nb : Point) (hnb : nb ∈ D)
    (hagree : ∀ c ∈ D, c ≠ nb → f2 c = f c) (hdrop : f2 nb + 1 ≤ f nb) :
    D.sum f2 + 1 ≤ D.sum f := by
  have h1 : (D.erase nb).sum f2 + f2 nb = D.sum f2 := Finset.sum_erase_add D f2 hnb
  have h2 : (D.erase nb).sum f + f nb = D.sum f := Finset.sum_erase_add D f hnb
  have heq : (D.erase nb).sum f2 = (D.erase nb).sum f := by
    apply Finset.sum_congr rfl
    intro c hc
    exact hagree c (Finset.mem_of_mem_erase hc) (Finset.ne_of_mem_erase hc)
  omega

theorem frontier_aux (walk : Point → Bool) (start goal : Point) (D : Finset Point)
    (st : AStar) (hS : SInv walk start goal D st) :
    ∀ (tl : List Point) (u : Point) (gu i : Nat),
    st.gScore u = some gu → gu ≤ i → List.Chain' AdjP (u :: tl) →
    (u :: tl).getLast? = some goal → (∀ q ∈ tl, walk q = true) →
    ∃ e ∈ st.openList, e.2 ≤ ((i + tl.length : Nat) : Int) := by
  intro tl
  induction tl with
  | nil =>
    intro u gu i hgu hle _ hlast _
    have hu : u = goal := by
      simp only [List.getLast?_singleton, Option.some.injEq] at hlast
      exact hlast
    subst hu
    rcases hS.hrelax u gu hgu with ⟨e, he, _, he2⟩ | ⟨hne, _⟩
    · refine ⟨e, he, ?_⟩
      rw [heuristic_self] at he2
      have : (gu : Int) ≤ ((i : Nat) : Int) := by exact_mod_cast hle
      simp only [List.length_nil]
      omega
    · exact absurd rfl hne
  | cons v tl ih =>
    intro u gu i hgu hle hchain hlast hwalk
    have hadj : AdjP u v := (List.chain'_cons.mp hchain).1
    have hch2 : List.Chain' AdjP (v :: tl) := (List.chain'_cons.mp hchain).2
    have hlast2 : (v :: tl).getLast? = some goal := by
      rw [← List.getLast?_cons_cons]
      exact hlast
    rcases hS.hrelax u gu hgu with ⟨e, he, _, he2⟩ | ⟨_, hrel⟩
    · refine ⟨e, he, ?_⟩
      have hman : heuristic u goal ≤ ((v :: tl).length : Int) :=
        chain_manhattan (v :: tl) u goal hchain hlast
      have hgui : (gu : Int) ≤ ((i : Nat) : Int) := by exact_mod_cast hle
      simp only [List.length_cons] at hman ⊢
      push_cast at hman ⊢
      omega
    · rcases hadj with ⟨d, hd, hv⟩
      have hwv : walk v = true := hwalk v (List.mem_cons_self v tl)
      rcases hrel d hd (by rw [← hv]; exact hwv) with ⟨gv, hgv, hgvle⟩
      rw [← hv] at hgv
      have := ih v gv (i + 1) hgv (by omega) hch2 hlast2
        (fun q hq => hwalk q (List.mem_cons_of_mem v hq))
      rcases this with ⟨e, he, he2⟩
      refine ⟨e, he, ?_⟩
      simp only [List.length_cons]
      have harith : ((i + 1 + tl.length : Nat) : Int) = ((i + (tl.length + 1) : Nat) : Int) := by
        push_cast
        omega
      rw [harith] at he2
      exact he2

/-- While a tail-walkable chain from start to goal exists, the open list holds
an entry priced at most the chain's step count. -/
theorem frontier (walk : Point → Bool) (start goal : Point) (D : Finset Point)
    (st : AStar) (hS : SInv walk start goal D st) (γ : List Point)
    (hγ : TailWalkableChain walk start goal γ) :
    ∃ e ∈ st.openList, e.2 ≤ ((γ.tail.length : Nat) : Int) := by
  rcases hγ with ⟨hhead, hlast, hchain, hwalk⟩
  cases γ with
  | nil => simp at hhead
  | cons a tl =>
    have ha : a = start := by
      simp only [List.head?_cons, Option.some.injEq] at hhead
      exact hhead
    rw [ha] at hchain hlast
    have := frontier_aux walk start goal D st hS tl start 0 0 hS.hstart (le_refl _)
      hchain hlast (by simpa using hwalk)
    simpa using this

/-- Path reconstruction walks the came-from chain back to the start, producing
an adjacent, duplicate-free path whose length is bounded by the g-score. -/
theorem recon_ok (walk : Point → Bool) (start : Point) (cf : Point → Option Point)
    (gsc : Point → Option Nat)
    (hassign : ∀ u, (gsc u).isSome = true → u = start ∨ walk u = true)
    (hcame : ∀ p q, cf p = some q → ∃ gp gq, gsc p = some gp ∧ gsc q = some gq ∧
      gq < gp ∧ AdjP q p ∧ walk p = true)
    (hcf : ∀ u, (gsc u).isSome = true → u ≠ start → (cf u).isSome = true) :
    ∀ (fuel : Nat) (cur : Point) (gc : Nat) (acc : List Point),
    gsc cur = some gc → gc < fuel → acc.head? = some cur →
    List.Chain' AdjP acc → acc.Nodup →
    (∀ x ∈ acc, ∃ gx, gsc x = some gx ∧ gc ≤ gx) →
    (∀ x ∈ acc, x = start ∨ walk x = true) →
    (reconstruct cf start fuel cur acc).head? = some start ∧
    (reconstruct cf start fuel cur acc).getLast? = acc.getLast? ∧
    List.Chain' AdjP (reconstruct cf start fuel cur acc) ∧
    (reconstruct cf start fuel cur acc).Nodup ∧
    (∀ x ∈ reconstruct cf start fuel cur acc, x = start ∨ walk x = true) ∧
    (reconstruct cf start fuel cur acc).length ≤ gc + acc.length := by
  intro fuel
  induction fuel with
  | zero => intro cur gc acc _ hlt; omega
  | succ fuel ih =>
    intro cur gc acc hgc hlt hhead hchain hnodup hbound hwalkish
    rw [reconstruct]
    by_cases hcs : cur = start
    · rw [if_pos hcs]
      subst hcs
      exact ⟨hhead, rfl, hchain, hnodup, hwalkish, by omega⟩
    · rw [if_neg hcs]
      have hcfs : (cf cur).isSome = true := hcf cur (by rw [hgc]; rfl) hcs
      cases hq : cf cur with
      | none => rw [hq] at hcfs; exact absurd hcfs (by decide)
      | some q =>
        dsimp only
        simp only [Option.getD_some]
        rcases hcame cur q hq with ⟨gp, gq, hgp, hgq, hlt2, hadj, _⟩
        have hgpgc : gp = gc := by rw [hgc] at hgp; exact (Option.some.injEq _ _).mp hgp.symm
        subst hgpgc
        have hqnotin : q ∉ acc := by
          intro hin
          rcases hbound q hin with ⟨gx, hgx, hgxge⟩
          rw [hgq] at hgx
          have : gq = gx := (Option.some.injEq _ _).mp hgx
          omega
        have hres := ih q gq (q :: acc) hgq (by omega) rfl
          (List.chain'_cons'.mpr ⟨by
            intro y hy
            rw [hhead] at hy
            have hyc : cur = y := by
              rw [Option.mem_def] at hy
              exact (Option.some.injEq _ _).mp hy
            rw [← hyc]
            exact hadj, hchain⟩)
          (List.nodup_cons.mpr ⟨hqnotin, hnodup⟩)
          (by
            intro x hx
            rcases List.mem_cons.mp hx with rfl | hx2
            · exact ⟨gq, hgq, le_refl _⟩
            · rcases hbound x hx2 with ⟨gx, hgx, hgxge⟩
              exact ⟨gx, hgx, by omega⟩)
          (by
            intro x hx
            rcases List.mem_cons.mp hx with rfl | hx2
            · exact hassign x (by rw [hgq]; rfl)
            · exact hwalkish x hx2)
        obtain ⟨h1, h2, h3, h4, h5, h6⟩ := hres
        refine ⟨h1, ?_, h3, h4, h5, by simp only [List.length_cons] at h6; omega⟩
        rw [h2]
        cases acc with
        | nil => simp at hhead
        | cons a tl => exact List.getLast?_cons_cons

theorem addPoint_ne (p d : Point) (hd : d ∈ dirs) : addPoint p d ≠ p := by
  simp only [dirs, List.mem_cons, List.not_mem_nil, or_false] at hd
  rcases hd with rfl | rfl | rfl | rfl
  · intro h
    have h2 := congrArg Point.Y h
    simp only [addPoint] at h2
    omega
  · intro h
    have h2 := congrArg Point.Y h
    simp only [addPoint] at h2
    omega
  · intro h
    have h2 := congrArg Point.X h
    simp only [addPoint] at h2
    omega
  · intro h
    have h2 := congrArg Point.X h
    simp only [addPoint] at h2
    omega

theorem relaxNeighbor_step (walk : Point → Bool) (start goal : Point) (D : Finset Point)
    (hD : ∀ u, walk u = true → u ∈ D)
    (cur : Point) (gcur : Nat) (d : Point) (hd : d ∈ dirs) (st : AStar)
    (hM : MInv walk start goal D cur gcur st) :
    MInv walk start goal D cur gcur (relaxNeighbor walk goal cur st d) ∧
    RelaxedDir walk (relaxNeighbor walk goal cur st d) cur gcur d ∧
    (∀ d2, RelaxedDir walk st cur gcur d2 →
      RelaxedDir walk (relaxNeighbor walk goal cur st d) cur gcur d2) ∧
    phi D (relaxNeighbor walk goal cur st d) ≤ phi D st := by
  have hne : addPoint cur d ≠ cur := addPoint_ne cur d hd
  unfold relaxNeighbor
  dsimp only
  by_cases hw : walk (addPoint cur d) = true
  case neg =>
    rw [if_neg hw]
    exact ⟨hM, fun hc => absurd hc hw, fun d2 h => h, le_refl _⟩
  case pos =>
    rw [if_pos hw]
    have htg : (st.gScore cur).getD 0 + 1 = gcur + 1 := by rw [hM.hcur]; rfl
    by_cases himp : improves (st.gScore (addPoint cur d)) ((st.gScore cur).getD 0 + 1) = true
    case neg =>
      rw [if_neg himp]
      have hrel : RelaxedDir walk st cur gcur d := by
        intro _
        cases hnb : st.gScore (addPoint cur d) with
        | none =>
          rw [hnb] at himp
          exact absurd rfl himp
        | some o =>
          rw [hnb] at himp
          have ho : ¬ ((st.gScore cur).getD 0 + 1 < o) := by
            intro hc
            exact himp (by simp only [improves, decide_eq_true_eq]; omega)
          exact ⟨o, rfl, by omega⟩
      exact ⟨hM, hrel, fun d2 h => h, le_refl _⟩
    case pos =>
      rw [if_pos himp]
      rw [htg] at himp ⊢
      have hnbD : addPoint cur d ∈ D := hD _ hw
      have hnbstart : addPoint cur d ≠ start := by
        intro hcontra
        rw [hcontra, hM.hstart] at himp
        simp only [improves, decide_eq_true_eq] at himp
        omega
      refine ⟨⟨?_, ?_, ?_, ?_, ?_, ?_, ?_, ?_, ?_⟩, ?_, ?_, ?_⟩
      -- hord
      · exact heapPush_ord _ _ hM.hord
      -- hstart
      · show (if start = addPoint cur d then some (gcur + 1) else st.gScore start) = some 0
        rw [if_neg (fun h => hnbstart h.symm)]
        exact hM.hstart
      -- hopen
      · intro e he
        rw [heapPush_mem] at he
        rcases he with rfl | he
        · refine ⟨gcur + 1, ?_, Or.inr (le_refl _)⟩
          show (if addPoint cur d = addPoint cur d then some (gcur + 1) else _) = _
          rw [if_pos rfl]
        · rcases hM.hopen e he with ⟨gu, hgu, hdisj⟩
          by_cases h1 : e.1 = addPoint cur d
          · refine ⟨gcur + 1, ?_, ?_⟩
            · show (if e.1 = addPoint cur d then some (gcur + 1) else st.gScore e.1) = _
              rw [if_pos h1]
            · rcases hdisj with hs | hpr
              · exact absurd (h1 ▸ hs : addPoint cur d = start) hnbstart
              · right
                rw [h1] at hgu hpr
                rw [hgu] at himp
                simp only [improves, decide_eq_true_eq] at himp
                have hhh : ((gcur + 1 : Nat) : Int) ≤ (gu : Int) := by
                  exact_mod_cast Nat.le_of_lt himp
                rw [h1]
                omega
          · refine ⟨gu, ?_, hdisj⟩
            show (if e.1 = addPoint cur d then some (gcur + 1) else st.gScore e.1) = _
            rw [if_neg h1]
            exact hgu
      -- hassign
      · intro u hu
        by_cases h1 : u = addPoint cur d
        · exact Or.inr (h1 ▸ hw)
        · apply hM.hassign u
          show (st.gScore u).isSome = true
          have : (if u = addPoint cur d then some (gcur + 1) else st.gScore u).isSome = true := hu
          rw [if_neg h1] at this
          exact this
      -- hcard
      · intro u gu hgu
        cases hold : st.gScore (addPoint cur d) with
        | none =>
          have hnotmem : addPoint cur d ∉ assignedSet D st := by
            simp only [assignedSet, Finset.mem_filter, hold]
            intro hc
            exact absurd hc.2 (by decide)
          have hset : assignedSet D
              ⟨heapPush st.openList (addPoint cur d,
                  ((gcur + 1 : Nat) : Int) + heuristic (addPoint cur d) goal),
                fun p => if p = addPoint cur d then some (gcur + 1) else st.gScore p,
                fun p => if p = addPoint cur d then some cur else st.cameFrom p⟩
              = insert (addPoint cur d) (assignedSet D st) := by
            apply Finset.ext
            intro c
            simp only [assignedSet, Finset.mem_insert, Finset.mem_filter]
            by_cases hc : c = addPoint cur d
            · subst hc
              rw [if_pos rfl]
              constructor
              · intro _
                exact Or.inl rfl
              · intro _
                exact ⟨hnbD, rfl⟩
            · rw [if_neg hc]
              constructor
              · intro h
                exact Or.inr h
              · intro h
                rcases h with h | h
                · exact absurd h hc
                · exact h
            
          rw [hset, Finset.card_insert_of_not_mem hnotmem]
          by_cases h1 : u = addPoint cur d
          · have hgueq : gu = gcur + 1 := by
              have h2 : (if u = addPoint cur d then some (gcur + 1) else st.gScore u)
                  = some gu := hgu
              rw [if_pos h1] at h2
              exact ((Option.some.injEq _ _).mp h2).symm
            have hc2 := hM.hcard cur gcur hM.hcur
            omega
          · have h2 : (if u = addPoint cur d then some (gcur + 1) else st.gScore u)
                = some gu := hgu
            rw [if_neg h1] at h2
            have := hM.hcard u gu h2
            omega
        | some o =>
          have hset : assignedSet D
              ⟨heapPush st.openList (addPoint cur d,
                  ((gcur + 1 : Nat) : Int) + heuristic (addPoint cur d) goal),
                fun p => if p = addPoint cur d then some (gcur + 1) else st.gScore p,
                fun p => if p = addPoint cur d then some cur else st.cameFrom p⟩
              = assignedSet D st := by
            apply Finset.ext
            intro c
            simp only [assignedSet, Finset.mem_filter]
            by_cases hc : c = addPoint cur d
            · subst hc
              rw [if_pos rfl, hold]
              constructor
              · intro h
                exact ⟨h.1, rfl⟩
              · intro h
                exact ⟨h.1, rfl⟩
            · rw [if_neg hc]
          rw [hset]
          rw [hold] at himp
          simp only [improves, decide_eq_true_eq] at himp
          by_cases h1 : u = addPoint cur d
          · have hgueq : gu = gcur + 1 := by
              have h2 : (if u = addPoint cur d then some (gcur + 1) else st.gScore u)
                  = some gu := hgu
              rw [if_pos h1] at h2
              exact ((Option.some.injEq _ _).mp h2).symm
            have hc3 := hM.hcard (addPoint cur d) o hold
            omega
          · have h2 : (if u = addPoint cur d then some (gcur + 1) else st.gScore u)
                = some gu := hgu
            rw [if_neg h1] at h2
            exact hM.hcard u gu h2
      -- hcame
      · intro p q hpq
        by_cases h1 : p = addPoint cur d
        · have hq : q = cur := by
            have h2 : (if p = addPoint cur d then some cur else st.cameFrom p) = some q := hpq
            rw [if_pos h1] at h2
            exact ((Option.some.injEq _ _).mp h2).symm
          refine ⟨gcur + 1, gcur, ?_, ?_, by omega, ?_, h1 ▸ hw⟩
          · show (if p = addPoint cur d then some (gcur + 1) else st.gScore p) = _
            rw [if_pos h1]
          · show (if q = addPoint cur d then some (gcur + 1) else st.gScore q) = _
            rw [if_neg (fun h => hne ((hq.symm.trans h).symm))]
            rw [hq]
            exact hM.hcur
          · rw [hq, h1]
            exact ⟨d, hd, rfl⟩
        · have h2 : (if p = addPoint cur d then some cur else st.cameFrom p) = some q := hpq
          rw [if_neg h1] at h2
          rcases hM.hcame p q h2 with ⟨gp, gq, hgp, hgq, hlt, hadj, hwp⟩
          by_cases hq1 : q = addPoint cur d
          · refine ⟨gp, gcur + 1, ?_, ?_, ?_, hadj, hwp⟩
            · show (if p = addPoint cur d then some (gcur + 1) else st.gScore p) = _
              rw [if_neg h1]
              exact hgp
            · show (if q = addPoint cur d then some (gcur + 1) else st.gScore q) = _
              rw [if_pos hq1]
            · rw [hq1] at hgq
              rw [hgq] at himp
              simp only [improves, decide_eq_true_eq] at himp
              omega
          · refine ⟨gp, gq, ?_, ?_, hlt, hadj, hwp⟩
            · show (if p = addPoint cur d then some (gcur + 1) else st.gScore p) = _
              rw [if_neg h1]
              exact hgp
            · show (if q = addPoint cur d then some (gcur + 1) else st.gScore q) = _
              rw [if_neg hq1]
              exact hgq
      -- hcf
      · intro u hu hustart
        by_cases h1 : u = addPoint cur d
        · show (if u = addPoint cur d then some cur else st.cameFrom u).isSome = true
          rw [if_pos h1]
          rfl
        · show (if u = addPoint cur d then some cur else st.cameFrom u).isSome = true
          rw [if_neg h1]
          apply hM.hcf u _ hustart
          have : (if u = addPoint cur d then some (gcur + 1) else st.gScore u).isSome
              = true := hu
          rw [if_neg h1] at this
          exact this
      -- hcur
      · show (if cur = addPoint cur d then some (gcur + 1) else st.gScore cur) = some gcur
        rw [if_neg (fun h => hne h.symm)]
        exact hM.hcur
      -- hrelax
      · intro u gu hgu hucur
        by_cases h1 : u = addPoint cur d
        · left
          refine ⟨(addPoint cur d, ((gcur + 1 : Nat) : Int) + heuristic (addPoint cur d) goal),
            by rw [heapPush_mem]; exact Or.inl rfl, h1.symm, ?_⟩
          have hgu2 : gu = gcur + 1 := by
            have h2 : (if u = addPoint cur d then some (gcur + 1) else st.gScore u)
                = some gu := hgu
            rw [if_pos h1] at h2
            exact ((Option.some.injEq _ _).mp h2).symm
          rw [hgu2, h1]
        · have h2 : (if u = addPoint cur d then some (gcur + 1) else st.gScore u)
              = some gu := hgu
          rw [if_neg h1] at h2
          rcases hM.hrelax u gu h2 hucur with ⟨e, he, he1, he2⟩ | ⟨hug, hrel⟩
          · left
            exact ⟨e, by rw [heapPush_mem]; exact Or.inr he, he1, he2⟩
          · right
            refine ⟨hug, ?_⟩
            intro d2 hd2 hw2
            rcases hrel d2 hd2 hw2 with ⟨gn, hgn, hgnle⟩
            by_cases h3 : addPoint u d2 = addPoint cur d
            · refine ⟨gcur + 1, ?_, ?_⟩
              · show (if addPoint u d2 = addPoint cur d then some (gcur + 1)
                    else st.gScore (addPoint u d2)) = _
                rw [if_pos h3]
              · rw [h3] at hgn
                rw [hgn] at himp
                simp only [improves, decide_eq_true_eq] at himp
                omega
            · refine ⟨gn, ?_, hgnle⟩
              show (if addPoint u d2 = addPoint cur d then some (gcur + 1)
                  else st.gScore (addPoint u d2)) = _
              rw [if_neg h3]
              exact hgn
      -- RelaxedDir for d
      · intro _
        refine ⟨gcur + 1, ?_, le_refl _⟩
        show (if addPoint cur d = addPoint cur d then some (gcur + 1)
            else st.gScore (addPoint cur d)) = _
        rw [if_pos rfl]
      -- RelaxedDir preservation
      · intro d2 h hw2
        rcases h hw2 with ⟨gn, hgn, hgnle⟩
        by_cases h3 : addPoint cur d2 = addPoint cur d
        · refine ⟨gcur + 1, ?_, by omega⟩
          show (if addPoint cur d2 = addPoint cur d then some (gcur + 1)
              else st.gScore (addPoint cur d2)) = _
          rw [if_pos h3]
        · refine ⟨gn, ?_, hgnle⟩
          show (if addPoint cur d2 = addPoint cur d then some (gcur + 1)
              else st.gScore (addPoint cur d2)) = _
          rw [if_neg h3]
          exact hgn
      -- phi
      · show D.sum (ghat D _) + (heapPush st.openList _).length ≤ phi D st
        rw [heapPush_length]
        have hdrop : D.sum (ghat D
            ⟨heapPush st.openList (addPoint cur d,
                ((gcur + 1 : Nat) : Int) + heuristic (addPoint cur d) goal),
              fun p => if p = addPoint cur d then some (gcur + 1) else st.gScore p,
              fun p => if p = addPoint cur d then some cur else st.cameFrom p⟩) + 1
            ≤ D.sum (ghat D st) := by
          apply sum_drop_le D _ _ (addPoint cur d) hnbD
          · intro c hc hcnb
            show (if c = addPoint cur d then some (gcur + 1) else st.gScore c).getD D.card
                = (st.gScore c).getD D.card
            rw [if_neg hcnb]
          · show (if addPoint cur d = addPoint cur d then some (gcur + 1)
                else st.gScore (addPoint cur d)).getD D.card + 1
              ≤ (st.gScore (addPoint cur d)).getD D.card
            rw [if_pos rfl]
            cases hold : st.gScore (addPoint cur d) with
            | none =>
              show gcur + 1 + 1 ≤ D.card
              have hc1 := hM.hcard cur gcur hM.hcur
              have hc2 : (assignedSet D st).card ≤ D.card :=
                Finset.card_le_card (Finset.filter_subset _ _)
              have hnotmem : addPoint cur d ∉ assignedSet D st := by
                simp only [assignedSet, Finset.mem_filter, hold]
                intro hc
                exact absurd hc.2 (by decide)
              have hlt2 : (assignedSet D st).card < D.card := by
                apply Finset.card_lt_card
                constructor
                · exact Finset.filter_subset _ _
                · intro hsub
                  exact hnotmem (hsub hnbD)
              omega
            | some o =>
              show gcur + 1 + 1 ≤ o
              rw [hold] at himp
              simp only [improves, decide_eq_true_eq] at himp
              omega
        unfold phi
        omega

theorem relaxAll_spec (walk : Point → Bool) (start goal : Point) (D : Finset Point)
    (hD : ∀ u, walk u = true → u ∈ D)
    (cur : Point) (gcur : Nat) (st : AStar)
    (hM : MInv walk start goal D cur gcur st) (hng : cur ≠ goal) :
    SInv walk start goal D (relaxAll walk goal cur st) ∧
    phi D (relaxAll walk goal cur st) ≤ phi D st := by
  have hd0 : (⟨0, -1⟩ : Point) ∈ dirs := by simp [dirs]
  have hd1 : (⟨0, 1⟩ : Point) ∈ dirs := by simp [dirs]
  have hd2 : (⟨-1, 0⟩ : Point) ∈ dirs := by simp [dirs]
  have hd3 : (⟨1, 0⟩ : Point) ∈ dirs := by simp [dirs]
  obtain ⟨hM1, hr1, hp1, hphi1⟩ :=
    relaxNeighbor_step walk start goal D hD cur gcur ⟨0, -1⟩ hd0 st hM
  obtain ⟨hM2, hr2, hp2, hphi2⟩ :=
    relaxNeighbor_step walk start goal D hD cur gcur ⟨0, 1⟩ hd1 _ hM1
  obtain ⟨hM3, hr3, hp3, hphi3⟩ :=
    relaxNeighbor_step walk start goal D hD cur gcur ⟨-1, 0⟩ hd2 _ hM2
  obtain ⟨hM4, hr4, hp4, hphi4⟩ :=
    relaxNeighbor_step walk start goal D hD cur gcur ⟨1, 0⟩ hd3 _ hM3
  have hrd0 := hp4 _ (hp3 _ (hp2 _ hr1))
  have hrd1 := hp4 _ (hp3 _ hr2)
  have hrd2 := hp4 _ hr3
  have hrd3 := hr4
  have hfold : relaxAll walk goal cur st =
      relaxNeighbor walk goal cur
        (relaxNeighbor walk goal cur
          (relaxNeighbor walk goal cur
            (relaxNeighbor walk goal cur st ⟨0, -1⟩) ⟨0, 1⟩) ⟨-1, 0⟩) ⟨1, 0⟩ := rfl
  rw [hfold]
  refine ⟨⟨hM4.hord, hM4.hstart, hM4.hopen, hM4.hassign, hM4.hcard, hM4.hcame,
    hM4.hcf, ?_⟩, le_trans hphi4 (le_trans hphi3 (le_trans hphi2 hphi1))⟩
  intro u gu hgu
  by_cases hu : u = cur
  · right
    refine ⟨by rw [hu]; exact hng, ?_⟩
    intro d hd
    have hgc : gu = gcur := by
      rw [hu] at hgu
      rw [hM4.hcur] at hgu
      exact ((Option.some.injEq _ _).mp hgu).symm
    rw [hu, hgc]
    simp only [dirs, List.mem_cons, List.not_mem_nil, or_false] at hd
    rcases hd with rfl | rfl | rfl | rfl
    · exact hrd0
    · exact hrd1
    · exact hrd2
    · exact hrd3
  · exact hM4.hrelax u gu hgu hu

theorem pop_step (walk : Point → Bool) (start goal : Point) (D : Finset Point)
    (st : AStar) (h0 : 0 < st.openList.length) (hS : SInv walk start goal D st) :
    ∃ gcur, st.gScore (heapPop st.openList).1.1 = some gcur ∧
      MInv walk start goal D (heapPop st.openList).1.1 gcur
        { st with openList := (heapPop st.openList).2 } ∧
      ((heapPop st.openList).1.1 = start ∨
        (gcur : Int) + heuristic (heapPop st.openList).1.1 goal
          ≤ (heapPop st.openList).1.2) ∧
      phi D { st with openList := (heapPop st.openList).2 } + 1 = phi D st := by
  have hmem : (heapPop st.openList).1 ∈ st.openList := by
    rw [← Multiset.mem_coe, ← heapPop_perm st.openList h0]
    exact Multiset.mem_cons_self _ _
  rcases hS.hopen _ hmem with ⟨gcur, hgcur, hdisj⟩
  refine ⟨gcur, hgcur,
    ⟨heapPop_ord st.openList h0 hS.hord, hS.hstart, ?_, hS.hassign, hS.hcard,
      hS.hcame, hS.hcf, hgcur, ?_⟩, hdisj, ?_⟩
  · intro e he
    exact hS.hopen e (heapPop_mem_of_mem st.openList h0 e he)
  · intro u gu hgu hucur
    rcases hS.hrelax u gu hgu with ⟨e, he, he1, he2⟩ | hcl
    · left
      rcases heapPop_mem_cases st.openList h0 e he with heq | hin
      · exfalso
        apply hucur
        rw [← he1, heq]
      · exact ⟨e, hin, he1, he2⟩
    · right
      exact hcl
  · have hgh : D.sum (ghat D { st with openList := (heapPop st.openList).2 })
        = D.sum (ghat D st) := rfl
    show D.sum (ghat D { st with openList := (heapPop st.openList).2 })
        + (heapPop st.openList).2.length + 1 = phi D st
    rw [hgh, heapPop_length st.openList h0]
    unfold phi
    omega

theorem searchLoop_zero (walk : Point → Bool) (start goal : Point) (st : AStar) :
    searchLoop walk start goal 0 st = none := rfl

theorem searchLoop_nil (walk : Point → Bool) (start goal : Point) (fuel : Nat) (st : AStar)
    (hop : st.openList = []) : searchLoop walk start goal (fuel + 1) st = none := by
  obtain ⟨op, gs, cf⟩ := st
  dsimp only at hop
  subst hop
  rfl

theorem searchLoop_cons (walk : Point → Bool) (start goal : Point) (fuel : Nat) (st : AStar)
    (x : PQItem) (xs : List PQItem) (hop : st.openList = x :: xs) :
    searchLoop walk start goal (fuel + 1) st =
      (if (heapPop st.openList).1.1 = goal
       then some (reconstruct st.cameFrom start ReconFuel (heapPop st.openList).1.1
         [(heapPop st.openList).1.1])
       else searchLoop walk start goal fuel
         (relaxAll walk goal (heapPop st.openList).1.1
           { st with openList := (heapPop st.openList).2 })) := by
  obtain ⟨op, gs, cf⟩ := st
  dsimp only at hop
  subst hop
  rfl

theorem loop_complete (walk : Point → Bool) (start goal : Point) (D : Finset Point)
    (hD : ∀ u, walk u = true → u ∈ D) :
    ∀ (fuel : Nat) (st : AStar), SInv walk start goal D st → phi D st < fuel →
    (∃ γ, TailWalkableChain walk start goal γ) →
    (searchLoop walk start goal fuel st).isSome = true := by
  intro fuel
  induction fuel with
  | zero =>
    intro st _ hphi _
    omega
  | succ fuel ih =>
    intro st hS hphi hex
    cases hop : st.openList with
    | nil =>
      rcases hex with ⟨γ, hγ⟩
      rcases frontier walk start goal D st hS γ hγ with ⟨e, he, _⟩
      rw [hop] at he
      exact absurd he (List.not_mem_nil e)
    | cons x xs =>
      rw [searchLoop_cons walk start goal fuel st x xs hop]
      by_cases hg : (heapPop st.openList).1.1 = goal
      · rw [if_pos hg]
        rfl
      · rw [if_neg hg]
        have h0 : 0 < st.openList.length := by rw [hop]; simp
        rcases pop_step walk start goal D st h0 hS with ⟨gcur, hgcur, hMrest, _, hphip⟩
        obtain ⟨hS4, hphi4⟩ := relaxAll_spec walk start goal D hD _ gcur _ hMrest hg
        exact ih _ hS4 (by omega) hex

theorem loop_sound (walk : Point → Bool) (start goal : Point) (D : Finset Point)
    (hD : ∀ u, walk u = true → u ∈ D) (hDcard : D.card ≤ 301) :
    ∀ (fuel : Nat) (st : AStar) (p : List Point), SInv walk start goal D st →
    searchLoop walk start goal fuel st = some p →
    p.head? = some start ∧ p.getLast? = some goal ∧ List.Chain' AdjP p ∧
    (∀ q ∈ p, q = start ∨ walk q = true) ∧ p.Nodup ∧
    (∀ γ, TailWalkableChain walk start goal γ → p.length ≤ γ.length) := by
  intro fuel
  induction fuel with
  | zero =>
    intro st p _ hres
    rw [searchLoop_zero] at hres
    cases hres
  | succ fuel ih =>
    intro st p hS hres
    cases hop : st.openList with
    | nil =>
      rw [searchLoop_nil walk start goal fuel st hop] at hres
      cases hres
    | cons x xs =>
      rw [searchLoop_cons walk start goal fuel st x xs hop] at hres
      have h0 : 0 < st.openList.length := by rw [hop]; simp
      by_cases hg : (heapPop st.openList).1.1 = goal
      · rw [if_pos hg] at hres
        have hres2 : reconstruct st.cameFrom start ReconFuel (heapPop st.openList).1.1
            [(heapPop st.openList).1.1] = p := (Option.some.injEq _ _).mp hres
        rcases pop_step walk start goal D st h0 hS with ⟨gcur, hgcur, _, hdisj, _⟩
        have hlt : gcur < ReconFuel := by
          have h1 := hS.hcard _ gcur hgcur
          have h2 : (assignedSet D st).card ≤ D.card :=
            Finset.card_le_card (Finset.filter_subset _ _)
          show gcur < 302
          omega
        have hrec := recon_ok walk start st.cameFrom st.gScore hS.hassign hS.hcame hS.hcf
          ReconFuel (heapPop st.openList).1.1 gcur [(heapPop st.openList).1.1]
          hgcur hlt rfl (List.chain'_singleton _) (List.nodup_singleton _)
          (by
            intro z hz
            rw [List.mem_singleton] at hz
            rw [hz]
            exact ⟨gcur, hgcur, le_refl _⟩)
          (by
            intro z hz
            rw [List.mem_singleton] at hz
            rw [hz]
            exact hS.hassign _ (by rw [hgcur]; rfl))
        rw [hres2] at hrec
        obtain ⟨hh, hl, hch, hnd, hwk, hlen⟩ := hrec
        have hlast : p.getLast? = some goal := by
          rw [hl, List.getLast?_singleton, hg]
        refine ⟨hh, hlast, hch, hwk, hnd, ?_⟩
        intro γ hγ
        rcases frontier walk start goal D st hS γ hγ with ⟨e, he, he2⟩
        have hpople : (heapPop st.openList).1.2 ≤ e.2 := by
          rcases heapPop_mem_cases st.openList h0 e he with heq | hin
          · rw [heq]
          · exact heapPop_min st.openList h0 hS.hord e hin
        have hγne : γ ≠ [] := by
          intro hc
          rw [hc] at hγ
          rcases hγ with ⟨hγ1, _⟩
          cases hγ1
        have hγlen : γ.length = γ.tail.length + 1 := by
          cases γ with
          | nil => exact absurd rfl hγne
          | cons a tl => rfl
        have hplen : p.length ≤ gcur + 1 := by
          simpa using hlen
        rcases hdisj with hstart1 | hpriced
        · have hg0 : gcur = 0 := by
            rw [hstart1, hS.hstart] at hgcur
            exact ((Option.some.injEq _ _).mp hgcur).symm
          omega
        · rw [hg, heuristic_self] at hpriced
          have hgle : (gcur : Int) ≤ ((γ.tail.length : Nat) : Int) := by omega
          have hgle2 : gcur ≤ γ.tail.length := by exact_mod_cast hgle
          omega
      · rw [if_neg hg] at hres
        rcases pop_step walk start goal D st h0 hS with ⟨gcur, hgcur, hMrest, _, _⟩
        obtain ⟨hS4, _⟩ := relaxAll_spec walk start goal D hD _ gcur _ hMrest hg
        exact ih _ p hS4 hres

/-- All cells of the 20 by 15 board plus the start cell: a bounding set for
every cell the search can assign. -/
def gameD (s : Point) : Finset Point :=
  insert s ((Finset.range 20 ×ˢ Finset.range 15).image
    (fun ab => (⟨(ab.1 : Int), (ab.2 : Int)⟩ : Point)))

theorem gameD_card (s : Point) : (gameD s).card ≤ 301 := by
  unfold gameD
  apply le_trans (Finset.card_insert_le _ _)
  have h1 : ((Finset.range 20 ×ˢ Finset.range 15).image
      (fun ab => (⟨(ab.1 : Int), (ab.2 : Int)⟩ : Point))).card
      ≤ (Finset.range 20 ×ˢ Finset.range 15).card := Finset.card_image_le
  have h2 : (Finset.range 20 ×ˢ Finset.range 15).card = 300 := by
    rw [Finset.card_product, Finset.card_range, Finset.card_range]
  omega

theorem walk_mem_gameD (g : Game) (s : Point) :
    ∀ u, walkOf g u = true → u ∈ gameD s := by
  intro u hw
  unfold walkOf Game.isWalkable at hw
  by_cases hc : (decide (u.X < 0) || decide (GridWidth ≤ u.X) || decide (u.Y < 0)
      || decide (GridHeight ≤ u.Y)) = true
  · rw [if_pos hc] at hw
    cases hw
  · have hb : ¬ u.X < 0 ∧ ¬ GridWidth ≤ u.X ∧ ¬ u.Y < 0 ∧ ¬ GridHeight ≤ u.Y := by
      simp only [Bool.or_eq_true, decide_eq_true_eq, not_or] at hc
      exact ⟨hc.1.1.1, hc.1.1.2, hc.1.2, hc.2⟩
    have hgw : GridWidth = 20 := rfl
    have hgh : GridHeight = 15 := rfl
    rw [hgw, hgh] at hb
    unfold gameD
    apply Finset.mem_insert_of_mem
    apply Finset.mem_image.mpr
    refine ⟨(u.X.toNat, u.Y.toNat), ?_, ?_⟩
    · apply Finset.mem_product.mpr
      constructor
      · apply Finset.mem_range.mpr
        omega
      · apply Finset.mem_range.mpr
        omega
    · have hx : (u.X.toNat : Int) = u.X := Int.toNat_of_nonneg (by omega)
      have hy : (u.Y.toNat : Int) = u.Y := Int.toNat_of_nonneg (by omega)
      show (⟨(u.X.toNat : Int), (u.Y.toNat : Int)⟩ : Point) = u
      rw [hx, hy]

theorem phi_init_lt (s : Point) (D : Finset Point) (hDcard : D.card ≤ 301) :
    phi D (initState s) < SearchFuel := by
  have hsum : D.sum (ghat D (initState s)) ≤ D.card * 301 := by
    have hbound : ∀ c ∈ D, ghat D (initState s) c ≤ 301 := by
      intro c _
      unfold ghat initState
      dsimp only
      by_cases hc : c = s
      · rw [if_pos hc]
        show (0 : Nat) ≤ 301
        omega
      · rw [if_neg hc]
        show D.card ≤ 301
        exact hDcard
    calc D.sum (ghat D (initState s)) ≤ D.card • 301 :=
        Finset.sum_le_card_nsmul D _ 301 hbound
      _ = D.card * 301 := by rw [smul_eq_mul]
  have hlen : (initState s).openList.length = 1 := rfl
  have hsf : SearchFuel = 90903 := rfl
  unfold phi
  omega

theorem findPath_sound (g : Game) (s t : Point) (p : List Point)
    (h : g.findPath s t = some p) :
    TailWalkableChain (walkOf g) s t p ∧ p.Nodup ∧
    (∀ γ, TailWalkableChain (walkOf g) s t γ → p.length ≤ γ.length) := by
  have hres : searchLoop (walkOf g) s t SearchFuel (initState s) = some p := h
  have hS := sInv_init (walkOf g) s t (gameD s) (Finset.mem_insert_self _ _)
  obtain ⟨hh, hl, hch, hwk, hnd, hmin⟩ := loop_sound (walkOf g) s t (gameD s)
    (walk_mem_gameD g s) (gameD_card s) SearchFuel (initState s) p hS hres
  refine ⟨⟨hh, hl, hch, ?_⟩, hnd, hmin⟩
  intro q hq
  rcases hwk q (List.mem_of_mem_tail hq) with hqs | hqw
  · exfalso
    cases p with
    | nil => cases hq
    | cons a tl =>
      have ha : a = s := by
        simp only [List.head?_cons, Option.some.injEq] at hh
        exact hh
      simp only [List.tail_cons] at hq
      have hqa : q = a := by rw [hqs, ha]
      rw [hqa] at hq
      exact (List.nodup_cons.mp hnd).1 hq
  · exact hqw

theorem findPath_complete (g : Game) (s t : Point) (γ : List Point)
    (hγ : TailWalkableChain (walkOf g) s t γ) : (g.findPath s t).isSome = true := by
  have hS := sInv_init (walkOf g) s t (gameD s) (Finset.mem_insert_self _ _)
  exact loop_complete (walkOf g) s t (gameD s) (walk_mem_gameD g s) SearchFuel (initState s)
    hS (phi_init_lt s (gameD s) (gameD_card s)) ⟨γ, hγ⟩

/-- A 15-cell walkable detour chain on the ring board, used to witness the
minimality statement. -/
def detour15 : List Point :=
  [⟨10, 1⟩, ⟨11, 1⟩, ⟨11, 2⟩, ⟨10, 2⟩, ⟨10, 3⟩, ⟨10, 4⟩, ⟨10, 5⟩, ⟨10, 6⟩,
   ⟨10, 7⟩, ⟨10, 8⟩, ⟨10, 9⟩, ⟨10, 10⟩, ⟨10, 11⟩, ⟨10, 12⟩, ⟨10, 13⟩]

/-- C4 counterexample: findPath returns a path between the wall cell (0,0) and
itself although no walkable chain of 4-adjacent cells connects source and
target ((0,0) is not walkable, and every connecting chain contains it), so the
claimed if-and-only-if fails. -/
theorem c4_counterexample :
    Game.findPath newGame ⟨0, 0⟩ ⟨0, 0⟩ = some [⟨0, 0⟩] ∧
    newGame.isWalkable 0 0 = false ∧
    ∀ p, ¬ WalkableChain (walkOf newGame) ⟨0, 0⟩ ⟨0, 0⟩ p := by
  refine ⟨by decide, by decide, ?_⟩
  intro p hp
  rcases hp with ⟨hh, _, _, hall⟩
  have hmem : (⟨0, 0⟩ : Point) ∈ p := by
    cases p with
    | nil => cases hh
    | cons a tl =>
      have ha : a = ⟨0, 0⟩ := by
        simp only [List.head?_cons, Option.some.injEq] at hh
        exact hh
      rw [← ha]
      exact List.mem_cons_self a tl
  exact absurd (hall _ hmem) (by decide)

/-- C4 (amended): for every grid and every source and target, findPath returns
a path exactly when a chain of 4-adjacent cells connects source to target in
which every cell except possibly the source is walkable; and every returned
path is such a chain, starting at the source, ending at the target, with no
duplicate cells. -/
theorem c4_amended (g : Game) (s t : Point) :
    ((g.findPath s t).isSome = true ↔ ∃ γ, TailWalkableChain (walkOf g) s t γ) ∧
    (∀ p, g.findPath s t = some p → TailWalkableChain (walkOf g) s t p ∧ p.Nodup) := by
  constructor
  · constructor
    · intro hs
      rcases Option.isSome_iff_exists.mp hs with ⟨p, hp⟩
      obtain ⟨hc, _, _⟩ := findPath_sound g s t p hp
      exact ⟨p, hc⟩
    · intro hex
      rcases hex with ⟨γ, hγ⟩
      exact findPath_complete g s t γ hγ
  · intro p hp
    obtain ⟨hc, hnd, _⟩ := findPath_sound g s t p hp
    exact ⟨hc, hnd⟩

/-- Witness for C4: on the initial board the returned spawn-to-base path is the
straight 13-cell line, which the theorem certifies as an adjacent, all-but-source
walkable, duplicate-free chain. -/
theorem c4_amended_witness :
    TailWalkableChain (walkOf newGame) ⟨10, 1⟩ ⟨10, 13⟩ straight13 ∧ straight13.Nodup :=
  (c4_amended newGame ⟨10, 1⟩ ⟨10, 13⟩).2 straight13 (by decide)

/-- C5: every path findPath returns is shortest among the walkable 4-adjacent
chains between its endpoints, and on the 20 by 15 open board with only the
bordering wall ring, spawn (10,1) and base (10,13), it returns the straight
vertical line of 13 cells. -/
theorem c5_shortest :
    (∀ (g : Game) (s t : Point) (p γ : List Point), g.findPath s t = some p →
      WalkableChain (walkOf g) s t γ → p.length ≤ γ.length) ∧
    ringGame.findPath ⟨10, 1⟩ ⟨10, 13⟩ = some straight13 ∧
    straight13.length = 13 := by
  refine ⟨?_, by decide, by decide⟩
  intro g s t p γ hp hγ
  obtain ⟨_, _, hmin⟩ := findPath_sound g s t p hp
  exact hmin γ (walkableChain_tail _ _ _ _ hγ)

/-- Witness for C5: on the ring board the returned straight line (13 cells) is
no longer than the explicit 15-cell walkable detour. -/
theorem c5_witness :
    ringGame.findPath ⟨10, 1⟩ ⟨10, 13⟩ = some straight13 ∧
    WalkableChain (walkOf ringGame) ⟨10, 1⟩ ⟨10, 13⟩ detour15 ∧
    straight13.length ≤ detour15.length :=
  ⟨by decide, by decide, c5_shortest.1 ringGame ⟨10, 1⟩ ⟨10, 13⟩ straight13 detour15
    (by decide) (by decide)⟩

end TD
